import Mathlib

/-!
Verification of the Elements transaction wire codec
(primitives/transaction.h): the data model for transaction components
(outpoints, inputs, outputs, confidential values, witnesses) and the
shared serialize/deserialize algorithm SerializeTransaction, together
with its flag derivation and rejection rules.

Machine bytes are modelled as Fin 256; byte streams as List Byte.
Readers are functions List Byte -> Except SerErr (result x rest);
writers produce List Byte (or Except WErr (List Byte) where the C++
write path can fail via assert / GetAmount on a non-amount value).
-/

abbrev Byte := Fin 256

def byteOf (n : Nat) : Byte := ⟨n % 256, Nat.mod_lt n (by decide)⟩

/-- Little-endian fixed-width byte encoding of a natural number. -/
def leBytes : Nat → Nat → List Byte
  | 0, _ => []
  | k+1, n => byteOf n :: leBytes k (n / 256)

/-- Little-endian byte decoding. -/
def leNat : List Byte → Nat
  | [] => 0
  | b :: bs => b.val + 256 * leNat bs

/-- Reinterpret a 64-bit unsigned value as a two's-complement int64. -/
def toSigned64 (n : Nat) : Int :=
  if n < 9223372036854775808 then (n : Int) else (n : Int) - 18446744073709551616

/-- Reinterpret a 32-bit unsigned value as a two's-complement int32. -/
def toSigned32 (n : Nat) : Int :=
  if n < 2147483648 then (n : Int) else (n : Int) - 4294967296

/-- Serialization of an int64 (CAmount, nTxFee): 8 bytes little-endian. -/
def i64Bytes (z : Int) : List Byte := leBytes 8 (z % 18446744073709551616).toNat

/-- Serialization of an int32 (nVersion): 4 bytes little-endian. -/
def i32Bytes (z : Int) : List Byte := leBytes 4 (z % 4294967296).toNat

/-- Serialization of a uint32 (n, nSequence, nLockTime). -/
def u32Bytes (n : Nat) : List Byte := leBytes 4 n

/-- Format errors thrown by the read path of the codec. -/
inductive SerErr where
  | truncated
  | superfluousWitness
  | superfluousOutputWitness
  | unknownOptionalData
deriving DecidableEq, Repr

/-- Failures of the write path: the consistency assert
(tx.wit.vtxinwit.size() <= tx.vin.size()) and GetAmount on a
value that is not an amount. -/
inductive WErr where
  | assertFailed
  | notAnAmount
deriving DecidableEq, Repr

def readBytesN (n : Nat) (s : List Byte) : Except SerErr (List Byte × List Byte) :=
  if n ≤ s.length then .ok (s.take n, s.drop n) else .error .truncated

def readByte (s : List Byte) : Except SerErr (Byte × List Byte) :=
  match s with
  | [] => .error .truncated
  | b :: r => .ok (b, r)

def readU32 (s : List Byte) : Except SerErr (Nat × List Byte) :=
  match readBytesN 4 s with
  | .ok (p, r) => .ok (leNat p, r)
  | .error e => .error e

def readI32 (s : List Byte) : Except SerErr (Int × List Byte) :=
  match readBytesN 4 s with
  | .ok (p, r) => .ok (toSigned32 (leNat p), r)
  | .error e => .error e

def readI64 (s : List Byte) : Except SerErr (Int × List Byte) :=
  match readBytesN 8 s with
  | .ok (p, r) => .ok (toSigned64 (leNat p), r)
  | .error e => .error e

/-- Modelled from the spec: serialize.h is not part of the excerpt; vector
counts use the standard Bitcoin variable-length compact size encoding. -/
def writeCompactSize (n : Nat) : List Byte :=
  if n < 253 then [byteOf n]
  else if n < 2^16 then byteOf 253 :: leBytes 2 n
  else if n < 2^32 then byteOf 254 :: leBytes 4 n
  else byteOf 255 :: leBytes 8 n

/-- Modelled from the spec: compact size read (serialize.h not in excerpt). -/
def readCompactSize (s : List Byte) : Except SerErr (Nat × List Byte) :=
  match s with
  | [] => .error .truncated
  | b :: r =>
    if b.val < 253 then .ok (b.val, r)
    else if b.val = 253 then
      match readBytesN 2 r with
      | .ok (p, r2) => .ok (leNat p, r2)
      | .error e => .error e
    else if b.val = 254 then
      match readBytesN 4 r with
      | .ok (p, r2) => .ok (leNat p, r2)
      | .error e => .error e
    else
      match readBytesN 8 r with
      | .ok (p, r2) => .ok (leNat p, r2)
      | .error e => .error e

/-- Read exactly n records with the element reader p. -/
def readN {α : Type} (p : List Byte → Except SerErr (α × List Byte)) :
    Nat → List Byte → Except SerErr (List α × List Byte)
  | 0, s => .ok ([], s)
  | n+1, s =>
    match p s with
    | .ok (x, r) =>
      match readN p n r with
      | .ok (xs, r2) => .ok (x :: xs, r2)
      | .error e => .error e
    | .error e => .error e

/-- Vector read: compact size count, then that many records. -/
def readVec {α : Type} (p : List Byte → Except SerErr (α × List Byte))
    (s : List Byte) : Except SerErr (List α × List Byte) :=
  match readCompactSize s with
  | .ok (n, r) => readN p n r
  | .error e => .error e

/-- Vector write: compact size count, then the serialized elements. -/
def writeVec {α : Type} (w : α → List Byte) (l : List α) : List Byte :=
  writeCompactSize l.length ++ (l.map w).flatten

/-- Byte-string write (scripts, witness stack items, range proofs):
compact size length followed by the raw bytes. -/
def writeBytesVec (l : List Byte) : List Byte := writeCompactSize l.length ++ l

def readBytesVec (s : List Byte) : Except SerErr (List Byte × List Byte) :=
  match readCompactSize s with
  | .ok (n, r) => readBytesN n r
  | .error e => .error e

/-! ## Data model (primitives/transaction.h) -/

/-- COutPoint: a transaction hash (uint256, 32 raw bytes) and output index. -/
structure COutPoint where
  hash : List Byte
  n : Nat
deriving DecidableEq, Repr

def writeOutPoint (o : COutPoint) : List Byte := o.hash ++ u32Bytes o.n

def readOutPoint (s : List Byte) : Except SerErr (COutPoint × List Byte) :=
  match readBytesN 32 s with
  | .ok (h, r) =>
    match readU32 r with
    | .ok (n, r2) => .ok (⟨h, n⟩, r2)
    | .error e => .error e
  | .error e => .error e

/-- CTxIn: previous outpoint, scriptSig, nSequence. -/
structure CTxIn where
  prevout : COutPoint
  scriptSig : List Byte
  nSequence : Nat
deriving DecidableEq, Repr

def writeTxIn (i : CTxIn) : List Byte :=
  writeOutPoint i.prevout ++ writeBytesVec i.scriptSig ++ u32Bytes i.nSequence

def readTxIn (s : List Byte) : Except SerErr (CTxIn × List Byte) :=
  match readOutPoint s with
  | .ok (p, r) =>
    match readBytesVec r with
    | .ok (sc, r2) =>
      match readU32 r2 with
      | .ok (sq, r3) => .ok (⟨p, sc, sq⟩, r3)
      | .error e => .error e
    | .error e => .error e
  | .error e => .error e

/-- CTxOutValue: the commitment buffer (first byte is the discriminant)
plus the out-of-band range proof and nonce commitment. -/
structure CTxOutValue where
  vchCommitment : List Byte
  vchRangeproof : List Byte
  vchNonceCommitment : List Byte
deriving DecidableEq, Repr

def CTxOutValue.nExplicitSize : Nat := 9
def CTxOutValue.nCommittedSize : Nat := 33

/-- Modelled from the spec: CTxOutValue::SetNull is defined in
transaction.cpp (not in the excerpt); the Null state is the one-byte
sentinel 0xFF (IsNull checks vchCommitment[0] == 0xff, and the spec
describes Null as the minimal 1-byte encoding 0xFF). -/
def CTxOutValue.setNull : CTxOutValue := ⟨[byteOf 0xff], [], []⟩

def valueIsNull (v : CTxOutValue) : Bool := v.vchCommitment.head? == some (byteOf 0xff)

def valueIsAmount (v : CTxOutValue) : Bool :=
  v.vchCommitment.head? == some (byteOf 0) || v.vchCommitment.head? == some (byteOf 1)

def valueIsInBitcoinTx (v : CTxOutValue) : Bool :=
  v.vchCommitment.head? == some (byteOf 0)

/-- Modelled from the spec: CTxOutValue::GetAmount lives in
transaction.cpp (not in the excerpt); an explicit value (discriminant 0
or 1) carries a plain 8-byte integer amount in the rest of the buffer. -/
def getAmount (v : CTxOutValue) : Option Int :=
  match v.vchCommitment with
  | t :: rest =>
    if (t = byteOf 0 ∨ t = byteOf 1) ∧ rest.length = 8 then some (toSigned64 (leNat rest))
    else none
  | [] => none

/-- Modelled from the spec: CTxOutValue::SetToBitcoinAmount lives in
transaction.cpp (not in the excerpt); on a Bitcoin-compatible read the
bare integer is adopted as an explicit value with discriminant 0
(IsInBitcoinTransaction checks vchCommitment[0] == 0). -/
def setToBitcoinAmount (a : Int) : CTxOutValue :=
  ⟨byteOf 0 :: leBytes 8 (a % 18446744073709551616).toNat, [], []⟩

/-- CTxOutValue::SerializationOp, write direction: under
SERIALIZE_BITCOIN_BLOCK_OR_TX or for a value already in Bitcoin form,
the bare amount is written; otherwise the commitment buffer is emitted
as-is (tag byte then payload). -/
def writeValue (btc : Bool) (v : CTxOutValue) : Except WErr (List Byte) :=
  if btc || valueIsInBitcoinTx v then
    match getAmount v with
    | some a => .ok (i64Bytes a)
    | none => .error .notAnAmount
  else .ok v.vchCommitment

/-- CTxOutValue::SerializationOp, read direction, native mode: one
discriminant byte, then dispatch: 0/1 resize to 9 and read 8 more;
2/3 nothing further; 8/9 resize to 33 and read 32 more; any other
tag truncates the buffer to the single tag byte and stops. -/
def readValueNative (s : List Byte) : Except SerErr (CTxOutValue × List Byte) :=
  match s with
  | [] => .error .truncated
  | t :: r =>
    if t = byteOf 0 ∨ t = byteOf 1 then
      match readBytesN 8 r with
      | .ok (p, r2) => .ok (⟨t :: p, [], []⟩, r2)
      | .error e => .error e
    else if t = byteOf 2 ∨ t = byteOf 3 then .ok (⟨[t], [], []⟩, r)
    else if t = byteOf 8 ∨ t = byteOf 9 then
      match readBytesN 32 r with
      | .ok (p, r2) => .ok (⟨t :: p, [], []⟩, r2)
      | .error e => .error e
    else .ok (⟨[t], [], []⟩, r)

/-- CTxOutValue::SerializationOp, read direction: in Bitcoin-compatible
mode read a bare int64 and adopt it via SetToBitcoinAmount, else the
native tagged layout. -/
def readValue (btc : Bool) (s : List Byte) : Except SerErr (CTxOutValue × List Byte) :=
  if btc then
    match readI64 s with
    | .ok (a, r) => .ok (setToBitcoinAmount a, r)
    | .error e => .error e
  else readValueNative s

/-- CTxOut: confidential value and locking script. -/
structure CTxOut where
  nValue : CTxOutValue
  scriptPubKey : List Byte
deriving DecidableEq, Repr

def writeTxOut (btc : Bool) (o : CTxOut) : Except WErr (List Byte) :=
  match writeValue btc o.nValue with
  | .ok vb => .ok (vb ++ writeBytesVec o.scriptPubKey)
  | .error e => .error e

def readTxOut (btc : Bool) (s : List Byte) : Except SerErr (CTxOut × List Byte) :=
  match readValue btc s with
  | .ok (v, r) =>
    match readBytesVec r with
    | .ok (sc, r2) => .ok (⟨v, sc⟩, r2)
    | .error e => .error e
  | .error e => .error e

/-- CTxOutWitnessSerializer::IsNull: both the range proof and the nonce
commitment byte strings are empty. -/
def outWitIsNull (o : CTxOut) : Bool :=
  o.nValue.vchRangeproof.isEmpty && o.nValue.vchNonceCommitment.isEmpty

/-- CTxOutWitnessSerializer write path (non-Bitcoin mode): the range
proof then the nonce commitment, each as a byte vector. -/
def writeOutWit (o : CTxOut) : List Byte :=
  writeBytesVec o.nValue.vchRangeproof ++ writeBytesVec o.nValue.vchNonceCommitment

/-- Per-output read of the output-witness records, rebuilding each output
and tracking whether any record was non-null. -/
def readOutWits : List CTxOut → List Byte → Except SerErr ((List CTxOut × Bool) × List Byte)
  | [], s => .ok (([], false), s)
  | o :: os, s =>
    match readBytesVec s with
    | .ok (rp, r) =>
      match readBytesVec r with
      | .ok (nc, r2) =>
        match readOutWits os r2 with
        | .ok ((os2, had), r3) =>
          .ok ((⟨⟨o.nValue.vchCommitment, rp, nc⟩, o.scriptPubKey⟩ :: os2,
                (!(rp.isEmpty && nc.isEmpty)) || had), r3)
        | .error e => .error e
      | .error e => .error e
    | .error e => .error e

/-- CTxInWitness: the script witness stack. Modelled from the spec:
CScriptWitness lives in script.h (not in the excerpt); it is a stack of
byte strings, null iff the stack is empty. -/
structure CTxInWitness where
  stack : List (List Byte)
deriving DecidableEq, Repr

def inWitIsNull (w : CTxInWitness) : Bool := w.stack.isEmpty

def writeInWit (w : CTxInWitness) : List Byte := writeVec writeBytesVec w.stack

def readInWit (s : List Byte) : Except SerErr (CTxInWitness × List Byte) :=
  match readVec readBytesVec s with
  | .ok (st, r) => .ok (⟨st⟩, r)
  | .error e => .error e

/-- CTxWitness: per-input witnesses, index-aligned with the inputs. -/
structure CTxWitness where
  vtxinwit : List CTxInWitness
deriving DecidableEq, Repr

def txWitIsNull (w : CTxWitness) : Bool := w.vtxinwit.all inWitIsNull

/-- std vector resize with value-initialized padding, as used on
wit.vtxinwit before (de)serializing the witness block. -/
def resizeWit (l : List CTxInWitness) (n : Nat) : List CTxInWitness :=
  l.take n ++ List.replicate (n - l.length) ⟨[]⟩

/-- CTxWitness::SerializationOp, write direction: the entries back to
back (the count is implied by the input count). -/
def writeTxWitness (ws : List CTxInWitness) : List Byte := (ws.map writeInWit).flatten

/-- CTxWitness::SerializationOp, read direction: read one entry per
input; if every entry is null the record was illegal to encode and the
read throws the Superfluous witness record failure. -/
def readTxWitness (n : Nat) (s : List Byte) : Except SerErr (CTxWitness × List Byte) :=
  match readN readInWit n s with
  | .ok (ws, r) =>
    if ws.all inWitIsNull then .error .superfluousWitness else .ok (⟨ws⟩, r)
  | .error e => .error e

/-- CMutableTransaction. -/
structure CMutableTransaction where
  nVersion : Int
  nTxFee : Int
  vin : List CTxIn
  vout : List CTxOut
  wit : CTxWitness
  nLockTime : Nat
deriving DecidableEq, Repr

def TX_FEE_BITCOIN_TX_FLAG : Int := -42

/-- Flag derivation on the write path of SerializeTransaction: bit 0
(input witnesses) iff the witness container is non-null, bit 1 (output
witnesses) iff not Bitcoin-compatible and some output carries a
non-null output witness; everything suppressed under no-witness. -/
def computeFlags (tx : CMutableTransaction) (noWit btc : Bool) : Nat :=
  if noWit then 0
  else (if txWitIsNull tx.wit then 0 else 1) +
       (if !btc && tx.vout.any (fun o => !outWitIsNull o) then 2 else 0)

def writeVoutBody (btc : Bool) : List CTxOut → Except WErr (List Byte)
  | [] => .ok []
  | o :: os =>
    match writeTxOut btc o with
    | .ok b =>
      match writeVoutBody btc os with
      | .ok bs => .ok (b ++ bs)
      | .error e => .error e
    | .error e => .error e

/-- SerializeTransaction, write direction: version; fee (native mode,
unless it equals the sentinel); if any flag is set, the dummy empty
input list and the flags byte; inputs; outputs; the witness block per
flag bit; lock time.  The leading check models the consistency assert
tx.wit.vtxinwit.size() <= tx.vin.size(). -/
def encodeTx (tx : CMutableTransaction) (noWit btc : Bool) : Except WErr (List Byte) :=
  if tx.wit.vtxinwit.length ≤ tx.vin.length then
    match writeVoutBody btc tx.vout with
    | .ok voutBody =>
      let fl := computeFlags tx noWit btc
      .ok (i32Bytes tx.nVersion
        ++ (if !btc && (tx.nTxFee != TX_FEE_BITCOIN_TX_FLAG) then i64Bytes tx.nTxFee else [])
        ++ (if fl ≠ 0 then writeCompactSize 0 ++ [byteOf fl] else [])
        ++ writeVec writeTxIn tx.vin
        ++ (writeCompactSize tx.vout.length ++ voutBody)
        ++ (if fl &&& 1 ≠ 0 then writeTxWitness (resizeWit tx.wit.vtxinwit tx.vin.length) else [])
        ++ (if fl &&& 2 ≠ 0 then (tx.vout.map writeOutWit).flatten else [])
        ++ u32Bytes tx.nLockTime)
    | .error e => .error e
  else .error .assertFailed

/-- Read path, fee field: always read in native mode; in
Bitcoin-compatible mode nothing is consumed and the sentinel is
reconstructed. -/
def readFee (btc : Bool) (s : List Byte) : Except SerErr (Int × List Byte) :=
  if btc then .ok (TX_FEE_BITCOIN_TX_FLAG, s) else readI64 s

/-- Read path after the first input-list read: if it was empty and
witnesses are not suppressed, it was the dummy (or a legitimately empty
vin); read the flags byte, and when non-zero re-read the real input
and output lists.  A non-empty first read is the real input list and a
normal output list follows. -/
def readBody (noWit btc : Bool) (vin0 : List CTxIn) (s : List Byte) :
    Except SerErr ((Nat × List CTxIn × List CTxOut) × List Byte) :=
  if vin0.isEmpty && !noWit then
    match readByte s with
    | .ok (fl, s1) =>
      if fl.val ≠ 0 then
        match readVec readTxIn s1 with
        | .ok (vin, s2) =>
          match readVec (readTxOut btc) s2 with
          | .ok (vout, s3) => .ok ((fl.val, vin, vout), s3)
          | .error e => .error e
        | .error e => .error e
      else .ok ((0, [], []), s1)
    | .error e => .error e
  else
    match readVec (readTxOut btc) s with
    | .ok (vout, s1) => .ok ((0, vin0, vout), s1)
    | .error e => .error e

/-- Read path, flags bit 0: when set and witnesses allowed, clear the
bit, size the container to the input count and read the witness block. -/
def witStage (noWit : Bool) (fl : Nat) (nIn : Nat) (s : List Byte) :
    Except SerErr ((CTxWitness × Nat) × List Byte) :=
  if fl &&& 1 ≠ 0 ∧ noWit = false then
    match readTxWitness nIn s with
    | .ok (w, r) => .ok ((w, fl ^^^ 1), r)
    | .error e => .error e
  else .ok ((⟨[]⟩, fl), s)

/-- Read path, flags bit 1: when set, witnesses allowed and not
Bitcoin-compatible, clear the bit, read one output-witness record per
output and reject if every record was null. -/
def outWitStage (noWit btc : Bool) (fl : Nat) (vout : List CTxOut) (s : List Byte) :
    Except SerErr ((List CTxOut × Nat) × List Byte) :=
  if fl &&& 2 ≠ 0 ∧ noWit = false ∧ btc = false then
    match readOutWits vout s with
    | .ok ((vout2, had), r) =>
      if had then .ok ((vout2, fl ^^^ 2), r) else .error .superfluousOutputWitness
    | .error e => .error e
  else .ok ((vout, fl), s)

/-- SerializeTransaction, read direction. -/
def decodeTx (noWit btc : Bool) (s : List Byte) :
    Except SerErr (CMutableTransaction × List Byte) :=
  match readI32 s with
  | .error e => .error e
  | .ok (ver, s1) =>
    match readFee btc s1 with
    | .error e => .error e
    | .ok (fee, s2) =>
      match readVec readTxIn s2 with
      | .error e => .error e
      | .ok (vin0, s3) =>
        match readBody noWit btc vin0 s3 with
        | .error e => .error e
        | .ok ((fl, vin, vout0), s4) =>
          match witStage noWit fl vin.length s4 with
          | .error e => .error e
          | .ok ((wit, fl1), s5) =>
            match outWitStage noWit btc fl1 vout0 s5 with
            | .error e => .error e
            | .ok ((vout, fl2), s6) =>
              if fl2 ≠ 0 then .error .unknownOptionalData
              else
                match readU32 s6 with
                | .error e => .error e
                | .ok (lock, s7) => .ok (⟨ver, fee, vin, vout, wit, lock⟩, s7)

/-- Modelled from the spec: CTransaction::UpdateHash lives in
transaction.cpp (not in the excerpt); the cached id is the content hash
of the transaction serialized under no-witness mode, represented here by
that serialization itself (the hash is a pure function of it). -/
def txHashData (m : CMutableTransaction) : Except WErr (List Byte) :=
  encodeTx m true false

instance {ε α : Type} [DecidableEq ε] [DecidableEq α] : DecidableEq (Except ε α) := fun a b =>
  match a, b with
  | .ok x, .ok y =>
    if h : x = y then .isTrue (by rw [h]) else .isFalse (fun hh => h (Except.ok.inj hh))
  | .error x, .error y =>
    if h : x = y then .isTrue (by rw [h]) else .isFalse (fun hh => h (Except.error.inj hh))
  | .ok _, .error _ => .isFalse (fun hh => Except.noConfusion hh)
  | .error _, .ok _ => .isFalse (fun hh => Except.noConfusion hh)

/-- CTransaction: the immutable transaction; same fields as
CMutableTransaction plus the memory-only cached hash, filled in by the
constructor from a CMutableTransaction / by UpdateHash after a read. -/
structure CTransaction where
  toMutable : CMutableTransaction
  hashData : Except WErr (List Byte)
deriving DecidableEq, Repr

def mkCTransaction (m : CMutableTransaction) : CTransaction := ⟨m, txHashData m⟩

/-- CTransaction::operator==: compares only the cached hashes. -/
def ctxEq (a b : CTransaction) : Prop := a.hashData = b.hashData

/-- CTransaction deserialization: SerializeTransaction then UpdateHash. -/
def decodeCTx (noWit btc : Bool) (s : List Byte) :
    Except SerErr (CTransaction × List Byte) :=
  match decodeTx noWit btc s with
  | .ok (m, r) => .ok (mkCTransaction m, r)
  | .error e => .error e

/-- CTxOutValue::operator== (source lines 192-197): compares the range
proof, the commitment, and the nonce commitment. -/
def valueEq (a b : CTxOutValue) : Prop :=
  a.vchRangeproof = b.vchRangeproof ∧
  a.vchCommitment = b.vchCommitment ∧
  a.vchNonceCommitment = b.vchNonceCommitment

/-- CTxOut::operator== (source lines 288-292). -/
def txOutEq (a b : CTxOut) : Prop :=
  valueEq a.nValue b.nValue ∧ a.scriptPubKey = b.scriptPubKey

instance (a b : CTxOutValue) : Decidable (valueEq a b) := by unfold valueEq; infer_instance

instance (a b : CTxOut) : Decidable (txOutEq a b) := by unfold txOutEq; infer_instance

instance (a b : CTransaction) : Decidable (ctxEq a b) := by unfold ctxEq; infer_instance

/-- The value as reconstructed by a native read before the output-witness
stage: the commitment buffer with empty range proof and nonce commitment. -/
def stripValue (v : CTxOutValue) : CTxOutValue := ⟨v.vchCommitment, [], []⟩

def stripOut (o : CTxOut) : CTxOut := ⟨stripValue o.nValue, o.scriptPubKey⟩

/-- A size representable by the 64-bit compact size encoding. -/
abbrev sizeOk (n : Nat) : Prop := n < 2^64

/-- Structural well-formedness of a confidential value buffer, following
the data-model invariant: the first byte is the discriminant; explicit
values (tags 0/1) have a 9-byte buffer, the reserved legacy tags 2/3 a
bare tag, committed values (tags 8/9) a 33-byte buffer, and any other
tag is the minimal one-byte encoding. -/
def validValueShape (v : CTxOutValue) : Prop :=
  v.vchCommitment ≠ [] ∧
  ((v.vchCommitment.head? = some (byteOf 0) ∨ v.vchCommitment.head? = some (byteOf 1)) →
    v.vchCommitment.length = 9) ∧
  ((v.vchCommitment.head? = some (byteOf 2) ∨ v.vchCommitment.head? = some (byteOf 3)) →
    v.vchCommitment.length = 1) ∧
  ((v.vchCommitment.head? = some (byteOf 8) ∨ v.vchCommitment.head? = some (byteOf 9)) →
    v.vchCommitment.length = 33) ∧
  ((¬ (v.vchCommitment.head? = some (byteOf 0) ∨ v.vchCommitment.head? = some (byteOf 1) ∨
       v.vchCommitment.head? = some (byteOf 2) ∨ v.vchCommitment.head? = some (byteOf 3) ∨
       v.vchCommitment.head? = some (byteOf 8) ∨ v.vchCommitment.head? = some (byteOf 9))) →
    v.vchCommitment.length = 1)

instance (v : CTxOutValue) : Decidable (validValueShape v) := by
  unfold validValueShape; infer_instance

/-- A value in the state produced only by a Bitcoin-compatible read:
discriminant 0 over a 9-byte explicit buffer. -/
def bitcoinFormValue (v : CTxOutValue) : Prop :=
  v.vchCommitment.head? = some (byteOf 0) ∧ v.vchCommitment.length = 9

/-- Well-formedness of a transaction as the codec's write path requires:
fields within their machine ranges, 32-byte outpoint hashes, shaped
value buffers, machine-representable vector sizes, and the witness
container no longer than the input list (the write-path assert). -/
def ValidTx (tx : CMutableTransaction) : Prop :=
  (-(2^31) ≤ tx.nVersion ∧ tx.nVersion < 2^31) ∧
  (-(2^63) ≤ tx.nTxFee ∧ tx.nTxFee < 2^63) ∧
  tx.nLockTime < 2^32 ∧
  sizeOk tx.vin.length ∧ sizeOk tx.vout.length ∧
  (∀ i ∈ tx.vin,
    i.prevout.hash.length = 32 ∧ i.prevout.n < 2^32 ∧ i.nSequence < 2^32 ∧
    sizeOk i.scriptSig.length) ∧
  (∀ o ∈ tx.vout,
    validValueShape o.nValue ∧ sizeOk o.scriptPubKey.length ∧
    sizeOk o.nValue.vchRangeproof.length ∧ sizeOk o.nValue.vchNonceCommitment.length) ∧
  (∀ w ∈ tx.wit.vtxinwit, sizeOk w.stack.length ∧ ∀ it ∈ w.stack, sizeOk it.length) ∧
  tx.wit.vtxinwit.length ≤ tx.vin.length

instance (tx : CMutableTransaction) : Decidable (ValidTx tx) := by
  unfold ValidTx; infer_instance

/-- Consistency of a flag combination with a transaction's content: the
witness container is canonical (empty when null, input-aligned when
not); under no-witness there is no witness data at all; under the
Bitcoin-compatible subformat the fee is the sentinel and every value is
in Bitcoin form with no out-of-band witness data; in native mode the
fee is a real fee and no value is in the Bitcoin-only form; and a
flagless stream with an empty input list also has an empty output list. -/
def ConsistentFlags (tx : CMutableTransaction) (noWit btc : Bool) : Prop :=
  (txWitIsNull tx.wit = true → tx.wit.vtxinwit = []) ∧
  (txWitIsNull tx.wit = false → tx.wit.vtxinwit.length = tx.vin.length) ∧
  (noWit = true → tx.wit.vtxinwit = [] ∧ ∀ o ∈ tx.vout, outWitIsNull o = true) ∧
  (btc = true → tx.nTxFee = TX_FEE_BITCOIN_TX_FLAG ∧
    ∀ o ∈ tx.vout, bitcoinFormValue o.nValue ∧ outWitIsNull o = true) ∧
  (btc = false → tx.nTxFee ≠ TX_FEE_BITCOIN_TX_FLAG ∧
    ∀ o ∈ tx.vout, valueIsInBitcoinTx o.nValue = false) ∧
  (noWit = false → computeFlags tx noWit btc = 0 → tx.vin = [] → tx.vout = [])

instance (tx : CMutableTransaction) (noWit btc : Bool) :
    Decidable (ConsistentFlags tx noWit btc) := by
  unfold ConsistentFlags bitcoinFormValue; infer_instance

/-- Encode under a flag combination, then decode the produced bytes under
the same combination (mutable-transaction level). -/
def encThenDec (tx : CMutableTransaction) (noWit btc : Bool) :
    Option (Except SerErr (CMutableTransaction × List Byte)) :=
  match encodeTx tx noWit btc with
  | .ok bs => some (decodeTx noWit btc bs)
  | .error _ => none

/-- Encode under a flag combination, then decode the produced bytes under
the same combination, rebuilding the immutable transaction and its
cached hash (CTransaction level). -/
def encThenDecC (tx : CMutableTransaction) (noWit btc : Bool) :
    Option (Except SerErr (CTransaction × List Byte)) :=
  match encodeTx tx noWit btc with
  | .ok bs => some (decodeCTx noWit btc bs)
  | .error _ => none

/-- Encode natively, then decode the produced bytes in Bitcoin-compatible
mode (the reuse path the fee-sentinel omission enables). -/
def encNativeDecBtc (tx : CMutableTransaction) (noWit : Bool) :
    Option (Except SerErr (CMutableTransaction × List Byte)) :=
  match encodeTx tx noWit false with
  | .ok bs => some (decodeTx noWit true bs)
  | .error _ => none

/-! ## Concrete transactions and streams used in the claim analyses -/

/-- A transaction with zero inputs and outputs and a zero (non-sentinel)
fee, used against the Bitcoin-compatible round-trip claim. -/
def c1tx : CMutableTransaction := ⟨1, 0, [], [], ⟨[]⟩, 0⟩

/-- What the Bitcoin-compatible decoder actually returns for c1tx's
encoding: the fee is replaced by the sentinel. -/
def c1decoded : CMutableTransaction := ⟨1, TX_FEE_BITCOIN_TX_FLAG, [], [], ⟨[]⟩, 0⟩

/-- A native-mode transaction with one input carrying a two-element
witness stack and one explicit-amount output, used as the round-trip
witness instance. -/
def c1wtx : CMutableTransaction :=
  ⟨1, 7, [⟨⟨List.replicate 32 (0:Byte), 0⟩, [byteOf 0x51], 0xfffffffe⟩],
   [⟨⟨byteOf 1 :: leBytes 8 5, [], []⟩, [byteOf 0x51]⟩],
   ⟨[⟨[[byteOf 1, byteOf 2], [byteOf 3]]⟩]⟩, 0⟩

/-- The native encoding of c1tx: version 1, fee 0, empty inputs and
outputs, lock time 0, in the direct legacy layout. -/
def c3bytes : List Byte :=
  [byteOf 1, byteOf 0, byteOf 0, byteOf 0] ++ List.replicate 8 (byteOf 0) ++
  [byteOf 0, byteOf 0] ++ [byteOf 0, byteOf 0, byteOf 0, byteOf 0]

/-- The input appearing in the superfluous-witness rejection stream. -/
def c2in : CTxIn := ⟨⟨List.replicate 32 (0:Byte), 0⟩, [], 0⟩

/-- The rejection-scenario stream: version 1, fee 0, dummy empty input
list, flags byte 0b01, one real input, no outputs, then a single
all-empty input witness (stack count 0). -/
def c2stream : List Byte :=
  [byteOf 1, byteOf 0, byteOf 0, byteOf 0] ++ List.replicate 8 (byteOf 0) ++
  [byteOf 0, byteOf 1] ++
  ([byteOf 1] ++ (List.replicate 32 (byteOf 0) ++ [byteOf 0, byteOf 0, byteOf 0, byteOf 0] ++
    [byteOf 0] ++ [byteOf 0, byteOf 0, byteOf 0, byteOf 0])) ++
  [byteOf 0] ++ [byteOf 0] ++ [byteOf 0, byteOf 0, byteOf 0, byteOf 0]

/-- A stream whose flags byte is 4: unknown optional data. -/
def c4stream : List Byte :=
  [byteOf 1, byteOf 0, byteOf 0, byteOf 0] ++ List.replicate 8 (byteOf 0) ++
  [byteOf 0, byteOf 4, byteOf 0, byteOf 0] ++ [byteOf 0, byteOf 0, byteOf 0, byteOf 0]

/-- A transaction carrying the reserved fee sentinel, encoded natively. -/
def c6tx : CMutableTransaction := ⟨1, TX_FEE_BITCOIN_TX_FLAG, [], [], ⟨[]⟩, 0⟩

/-- A Bitcoin-form transaction (sentinel fee, tag-0 value): the reuse
case the fee omission serves. -/
def c6btx : CMutableTransaction :=
  ⟨1, TX_FEE_BITCOIN_TX_FLAG, [⟨⟨List.replicate 32 (0:Byte), 0⟩, [], 0⟩],
   [⟨⟨byteOf 0 :: leBytes 8 5, [], []⟩, []⟩], ⟨[]⟩, 0⟩

/-- A zero-input transaction with one (non-empty) output, witness flags
unset, used against the empty-input decode claim. -/
def c7tx : CMutableTransaction :=
  ⟨1, 0, [], [⟨⟨[byteOf 0xff], [], []⟩, []⟩], ⟨[]⟩, 0⟩

/-- Two outputs agreeing on the commitment and the script but differing
in the range proof. -/
def c8a : CTxOut := ⟨⟨[byteOf 0xff], [], []⟩, []⟩

def c8b : CTxOut := ⟨⟨[byteOf 0xff], [byteOf 1], []⟩, []⟩

/-- Base transaction, and two differing witness containers, for the
hash-only equality claim. -/
def c10m : CMutableTransaction :=
  ⟨1, 3, [⟨⟨List.replicate 32 (0:Byte), 0⟩, [], 0⟩], [], ⟨[]⟩, 0⟩

def c10w1 : CTxWitness := ⟨[]⟩

def c10w2 : CTxWitness := ⟨[⟨[[byteOf 0xaa]]⟩]⟩

/-! ## Round-trip infrastructure: bytes, integers, compact sizes -/

theorem byteOf_val (n : Nat) : (byteOf n).val = n % 256 := rfl

theorem byteOf_small {n : Nat} (h : n < 256) : (byteOf n).val = n := by
  simp [byteOf_val, Nat.mod_eq_of_lt h]

theorem leBytes_length (k n : Nat) : (leBytes k n).length = k := by
  induction k generalizing n with
  | zero => rfl
  | succ k ih => simp [leBytes, ih]

theorem leNat_leBytes (k n : Nat) : leNat (leBytes k n) = n % 256^k := by
  induction k generalizing n with
  | zero => simp [leBytes, leNat, Nat.mod_one]
  | succ k ih =>
    simp only [leBytes, leNat, ih, byteOf_val]
    rw [pow_succ, mul_comm (256^k) 256, Nat.mod_mul]

theorem leNat_leBytes_of_lt {k n : Nat} (h : n < 256^k) : leNat (leBytes k n) = n := by
  rw [leNat_leBytes, Nat.mod_eq_of_lt h]

theorem leNat_lt (l : List Byte) : leNat l < 256 ^ l.length := by
  induction l with
  | nil => simp [leNat]
  | cons b bs ih =>
    simp only [leNat, List.length_cons, pow_succ]
    have hb : b.val < 256 := b.isLt
    calc b.val + 256 * leNat bs < 256 + 256 * leNat bs := by omega
    _ = 256 * (leNat bs + 1) := by ring
    _ ≤ 256 * 256 ^ bs.length := by
        have : leNat bs + 1 ≤ 256 ^ bs.length := ih
        exact Nat.mul_le_mul_left 256 this
    _ = 256 ^ bs.length * 256 := by ring

theorem leBytes_leNat {l : List Byte} {k : Nat} (h : l.length = k) :
    leBytes k (leNat l) = l := by
  induction l generalizing k with
  | nil => subst h; rfl
  | cons b bs ih =>
    subst h
    simp only [List.length_cons, leBytes, leNat]
    congr 1
    · apply Fin.ext
      rw [byteOf_val]
      have hb : b.val < 256 := b.isLt
      omega
    · have hdiv : (b.val + 256 * leNat bs) / 256 = leNat bs := by
        have hb : b.val < 256 := b.isLt
        omega
      rw [hdiv]
      exact ih rfl

theorem readBytesN_exact {l : List Byte} {n : Nat} (h : l.length = n) (r : List Byte) :
    readBytesN n (l ++ r) = .ok (l, r) := by
  subst h
  simp [readBytesN, List.take_left, List.drop_left]

theorem readU32_roundtrip {n : Nat} (h : n < 2^32) (r : List Byte) :
    readU32 (u32Bytes n ++ r) = .ok (n, r) := by
  have hl : (u32Bytes n).length = 4 := leBytes_length 4 n
  simp only [readU32, readBytesN_exact hl r]
  have : leNat (u32Bytes n) = n := leNat_leBytes_of_lt (by norm_num at h ⊢; omega)
  rw [this]

theorem toSigned32_emod {z : Int} (h1 : -(2^31) ≤ z) (h2 : z < 2^31) :
    toSigned32 ((z % 4294967296).toNat) = z := by
  have e1 : -(2^31 : Int) = -2147483648 := by norm_num
  have e2 : (2^31 : Int) = 2147483648 := by norm_num
  rw [e1] at h1; rw [e2] at h2
  unfold toSigned32
  split <;> omega

theorem toSigned64_emod {z : Int} (h1 : -(2^63) ≤ z) (h2 : z < 2^63) :
    toSigned64 ((z % 18446744073709551616).toNat) = z := by
  have e1 : -(2^63 : Int) = -9223372036854775808 := by norm_num
  have e2 : (2^63 : Int) = 9223372036854775808 := by norm_num
  rw [e1] at h1; rw [e2] at h2
  unfold toSigned64
  split <;> omega

theorem readI32_roundtrip {z : Int} (h1 : -(2^31) ≤ z) (h2 : z < 2^31) (r : List Byte) :
    readI32 (i32Bytes z ++ r) = .ok (z, r) := by
  have hl : (i32Bytes z).length = 4 := leBytes_length 4 _
  simp only [readI32, readBytesN_exact hl r]
  have hlt : (z % 4294967296).toNat < 4294967296 := by omega
  have : leNat (i32Bytes z) = (z % 4294967296).toNat := by
    apply leNat_leBytes_of_lt; norm_num; omega
  rw [this, toSigned32_emod h1 h2]

theorem readI64_roundtrip {z : Int} (h1 : -(2^63) ≤ z) (h2 : z < 2^63) (r : List Byte) :
    readI64 (i64Bytes z ++ r) = .ok (z, r) := by
  have hl : (i64Bytes z).length = 8 := leBytes_length 8 _
  simp only [readI64, readBytesN_exact hl r]
  have hlt : (z % 18446744073709551616).toNat < 18446744073709551616 := by omega
  have : leNat (i64Bytes z) = (z % 18446744073709551616).toNat := by
    apply leNat_leBytes_of_lt; norm_num; omega
  rw [this, toSigned64_emod h1 h2]

theorem readCompactSize_roundtrip {n : Nat} (h : n < 2^64) (r : List Byte) :
    readCompactSize (writeCompactSize n ++ r) = .ok (n, r) := by
  unfold writeCompactSize
  by_cases h1 : n < 253
  · simp only [if_pos h1, List.cons_append, List.nil_append, readCompactSize]
    rw [byteOf_small (by omega)]
    simp [h1]
  · rw [if_neg h1]
    by_cases h2 : n < 2^16
    · simp only [if_pos h2, List.cons_append, readCompactSize]
      rw [byteOf_small (by omega)]
      have hl : (leBytes 2 n).length = 2 := leBytes_length 2 n
      simp only [readBytesN_exact hl r]
      have : leNat (leBytes 2 n) = n := leNat_leBytes_of_lt (by norm_num at h2 ⊢; omega)
      simp [this]
    · rw [if_neg h2]
      by_cases h3 : n < 2^32
      · simp only [if_pos h3, List.cons_append, readCompactSize]
        rw [byteOf_small (by omega)]
        have hl : (leBytes 4 n).length = 4 := leBytes_length 4 n
        simp only [readBytesN_exact hl r]
        have : leNat (leBytes 4 n) = n := leNat_leBytes_of_lt (by norm_num at h3 ⊢; omega)
        simp [this]
      · simp only [if_neg h3, List.cons_append, readCompactSize]
        rw [byteOf_small (by omega)]
        have hl : (leBytes 8 n).length = 8 := leBytes_length 8 n
        simp only [readBytesN_exact hl r]
        have : leNat (leBytes 8 n) = n := leNat_leBytes_of_lt (by norm_num at h ⊢; omega)
        simp [this]

theorem readBytesVec_roundtrip {l : List Byte} (h : sizeOk l.length) (r : List Byte) :
    readBytesVec (writeBytesVec l ++ r) = .ok (l, r) := by
  unfold writeBytesVec readBytesVec
  rw [List.append_assoc, readCompactSize_roundtrip h]
  exact readBytesN_exact rfl r

theorem readN_roundtrip {α : Type} (p : List Byte → Except SerErr (α × List Byte))
    (w : α → List Byte) (f : α → α) (l : List α)
    (H : ∀ x ∈ l, ∀ r : List Byte, p (w x ++ r) = .ok (f x, r)) (r : List Byte) :
    readN p l.length ((l.map w).flatten ++ r) = .ok (l.map f, r) := by
  induction l with
  | nil => simp [readN]
  | cons x xs ih =>
    have hx := H x (List.mem_cons_self x xs)
    have ihh := ih (fun y hy => H y (List.mem_cons_of_mem x hy))
    simp only [List.map_cons, List.flatten_cons, List.length_cons, List.append_assoc, readN,
      hx, ihh]

theorem readVec_roundtrip {α : Type} (p : List Byte → Except SerErr (α × List Byte))
    (w : α → List Byte) (f : α → α) (l : List α) (hn : sizeOk l.length)
    (H : ∀ x ∈ l, ∀ r : List Byte, p (w x ++ r) = .ok (f x, r)) (r : List Byte) :
    readVec p (writeVec w l ++ r) = .ok (l.map f, r) := by
  unfold writeVec readVec
  rw [List.append_assoc, readCompactSize_roundtrip hn]
  exact readN_roundtrip p w f l H r

theorem readOutPoint_roundtrip {o : COutPoint} (h32 : o.hash.length = 32)
    (hn : o.n < 2^32) (r : List Byte) :
    readOutPoint (writeOutPoint o ++ r) = .ok (o, r) := by
  unfold writeOutPoint readOutPoint
  simp only [List.append_assoc, readBytesN_exact h32, readU32_roundtrip hn]

theorem readTxIn_roundtrip {i : CTxIn} (h32 : i.prevout.hash.length = 32)
    (hn : i.prevout.n < 2^32) (hsq : i.nSequence < 2^32)
    (hsc : sizeOk i.scriptSig.length) (r : List Byte) :
    readTxIn (writeTxIn i ++ r) = .ok (i, r) := by
  unfold writeTxIn readTxIn
  simp only [List.append_assoc, readOutPoint_roundtrip h32 hn,
    readBytesVec_roundtrip hsc, readU32_roundtrip hsq]

theorem readValueNative_roundtrip {v : CTxOutValue} (hs : validValueShape v)
    (hbtc : valueIsInBitcoinTx v = false) (r : List Byte) :
    readValueNative (v.vchCommitment ++ r) = .ok (stripValue v, r) := by
  rcases hv : v.vchCommitment with _ | ⟨t, rest⟩
  · exact absurd hv hs.1
  obtain ⟨hne, h01, h23, h89, hother⟩ := hs
  rw [hv] at h01 h23 h89 hother
  simp only [List.head?_cons, Option.some.injEq, List.length_cons] at h01 h23 h89 hother
  have ht0 : ¬ t = byteOf 0 := by
    intro h
    rw [valueIsInBitcoinTx, hv, h] at hbtc
    simp at hbtc
  unfold readValueNative stripValue
  rw [hv]
  simp only [List.cons_append]
  by_cases h1 : t = byteOf 1
  · have h8 : rest.length = 8 := by have := h01 (Or.inr h1); omega
    rw [if_pos (Or.inr h1), readBytesN_exact h8 r]
  by_cases h2 : t = byteOf 2 ∨ t = byteOf 3
  · have h0 : rest = [] := by
      have := h23 h2
      exact List.length_eq_zero.mp (by omega)
    rw [if_neg (by tauto), if_pos h2, h0]
    simp
  by_cases h9 : t = byteOf 8 ∨ t = byteOf 9
  · have h32 : rest.length = 32 := by have := h89 h9; omega
    rw [if_neg (by tauto), if_neg h2, if_pos h9, readBytesN_exact h32 r]
  · have h0 : rest = [] := by
      have := hother (by tauto)
      exact List.length_eq_zero.mp (by omega)
    rw [if_neg (by tauto), if_neg h2, if_neg h9, h0]
    simp

/-- Pure byte image of the value write path (used to relate the fallible
writer to the list-level round-trip lemmas). -/
def pureValueBytes (btc : Bool) (v : CTxOutValue) : List Byte :=
  if btc || valueIsInBitcoinTx v then i64Bytes ((getAmount v).getD 0) else v.vchCommitment

def pureOutBytes (btc : Bool) (o : CTxOut) : List Byte :=
  pureValueBytes btc o.nValue ++ writeBytesVec o.scriptPubKey

theorem getAmount_of_bitcoinForm {v : CTxOutValue} (h : bitcoinFormValue v) :
    ∃ rest : List Byte, v.vchCommitment = byteOf 0 :: rest ∧ rest.length = 8 ∧
      getAmount v = some (toSigned64 (leNat rest)) := by
  obtain ⟨hh, hl⟩ := h
  rcases hv : v.vchCommitment with _ | ⟨t, rest⟩
  · rw [hv] at hh; simp at hh
  rw [hv] at hh hl
  simp only [List.head?_cons, Option.some.injEq] at hh
  simp only [List.length_cons] at hl
  subst hh
  have hl8 : rest.length = 8 := by omega
  refine ⟨rest, by simp [hv], hl8, ?_⟩
  simp [getAmount, hv, hl8]

theorem writeValue_native {v : CTxOutValue} (hbtc : valueIsInBitcoinTx v = false) :
    writeValue false v = .ok (pureValueBytes false v) := by
  unfold writeValue pureValueBytes
  simp [hbtc]

theorem writeValue_btc {v : CTxOutValue} (h : bitcoinFormValue v) :
    writeValue true v = .ok (pureValueBytes true v) := by
  obtain ⟨rest, hv, hl, hg⟩ := getAmount_of_bitcoinForm h
  unfold writeValue pureValueBytes
  simp [hg]

theorem toSigned64_range (n : Nat) (h : n < 18446744073709551616) :
    -(2^63) ≤ toSigned64 n ∧ toSigned64 n < 2^63 := by
  unfold toSigned64
  constructor
  · split <;> norm_num <;> omega
  · split <;> norm_num <;> omega

theorem toSigned64_mod_back (n : Nat) (h : n < 18446744073709551616) :
    ((toSigned64 n) % 18446744073709551616).toNat = n := by
  unfold toSigned64
  split <;> omega

theorem readValue_btc_roundtrip {v : CTxOutValue} (h : bitcoinFormValue v) (r : List Byte) :
    readValue true (pureValueBytes true v ++ r) = .ok (stripValue v, r) := by
  obtain ⟨rest, hv, hl8, hg⟩ := getAmount_of_bitcoinForm h
  have hlt : leNat rest < 18446744073709551616 := by
    have := leNat_lt rest
    rw [hl8] at this
    norm_num at this ⊢
    omega
  have hrange := toSigned64_range (leNat rest) hlt
  have hpv : pureValueBytes true v = i64Bytes (toSigned64 (leNat rest)) := by
    unfold pureValueBytes
    simp [hg]
  unfold readValue
  rw [hpv]
  simp only [if_true, Bool.true_eq, readI64_roundtrip hrange.1 hrange.2 r]
  unfold setToBitcoinAmount stripValue
  rw [toSigned64_mod_back (leNat rest) hlt, leBytes_leNat hl8, hv]

theorem readValue_roundtrip {btc : Bool} {v : CTxOutValue}
    (hn : btc = false → validValueShape v ∧ valueIsInBitcoinTx v = false)
    (hb : btc = true → bitcoinFormValue v) (r : List Byte) :
    writeValue btc v = .ok (pureValueBytes btc v) ∧
      readValue btc (pureValueBytes btc v ++ r) = .ok (stripValue v, r) := by
  cases btc with
  | false =>
    obtain ⟨hs, hbtc⟩ := hn rfl
    refine ⟨writeValue_native hbtc, ?_⟩
    have : pureValueBytes false v = v.vchCommitment := by
      unfold pureValueBytes; simp [hbtc]
    rw [this]
    simpa [readValue] using readValueNative_roundtrip hs hbtc r
  | true =>
    exact ⟨writeValue_btc (hb rfl), readValue_btc_roundtrip (hb rfl) r⟩

theorem writeTxOut_eq_pure {btc : Bool} {o : CTxOut}
    (hw : writeValue btc o.nValue = .ok (pureValueBytes btc o.nValue)) :
    writeTxOut btc o = .ok (pureOutBytes btc o) := by
  unfold writeTxOut pureOutBytes
  rw [hw]

theorem readTxOut_roundtrip {btc : Bool} {o : CTxOut}
    (hv : readValue btc (pureValueBytes btc o.nValue ++ (writeBytesVec o.scriptPubKey ++ r)) =
      .ok (stripValue o.nValue, writeBytesVec o.scriptPubKey ++ r))
    (hsc : sizeOk o.scriptPubKey.length) :
    readTxOut btc (pureOutBytes btc o ++ r) = .ok (stripOut o, r) := by
  unfold pureOutBytes readTxOut stripOut
  rw [List.append_assoc]
  simp only [hv, readBytesVec_roundtrip hsc]

theorem writeVoutBody_eq {btc : Bool} {l : List CTxOut}
    (H : ∀ o ∈ l, writeValue btc o.nValue = .ok (pureValueBytes btc o.nValue)) :
    writeVoutBody btc l = .ok ((l.map (pureOutBytes btc)).flatten) := by
  induction l with
  | nil => rfl
  | cons o os ih =>
    have ho := writeTxOut_eq_pure (H o (List.mem_cons_self o os))
    have ihh := ih (fun y hy => H y (List.mem_cons_of_mem o hy))
    simp only [writeVoutBody, ho, ihh, List.map_cons, List.flatten_cons]

theorem readInWit_roundtrip {w : CTxInWitness} (hst : sizeOk w.stack.length)
    (hit : ∀ it ∈ w.stack, sizeOk it.length) (r : List Byte) :
    readInWit (writeInWit w ++ r) = .ok (w, r) := by
  unfold writeInWit readInWit
  have h0 := readVec_roundtrip readBytesVec writeBytesVec id w.stack hst
    (fun x hx r2 => readBytesVec_roundtrip (hit x hx) r2) r
  rw [List.map_id] at h0
  simp only [h0]

theorem readTxWitness_roundtrip {ws : List CTxInWitness}
    (hsz : ∀ w ∈ ws, sizeOk w.stack.length ∧ ∀ it ∈ w.stack, sizeOk it.length)
    (hnn : ws.all inWitIsNull = false) (r : List Byte) :
    readTxWitness ws.length (writeTxWitness ws ++ r) = .ok (⟨ws⟩, r) := by
  unfold writeTxWitness readTxWitness
  have h0 := readN_roundtrip readInWit writeInWit id ws
    (fun x hx r2 => readInWit_roundtrip (hsz x hx).1 (hsz x hx).2 r2) r
  rw [List.map_id] at h0
  simp only [h0, hnn]
  simp

theorem readOutWits_roundtrip {l : List CTxOut}
    (hsz : ∀ o ∈ l, sizeOk o.nValue.vchRangeproof.length ∧
      sizeOk o.nValue.vchNonceCommitment.length) (r : List Byte) :
    readOutWits (l.map stripOut) ((l.map writeOutWit).flatten ++ r) =
      .ok ((l, l.any (fun o => !outWitIsNull o)), r) := by
  induction l with
  | nil => simp [readOutWits]
  | cons o os ih =>
    have h1 := (hsz o (List.mem_cons_self o os)).1
    have h2 := (hsz o (List.mem_cons_self o os)).2
    have ihh := ih (fun y hy => hsz y (List.mem_cons_of_mem o hy))
    simp only [List.map_cons, List.flatten_cons, List.append_assoc, readOutWits, writeOutWit,
      stripOut, stripValue, readBytesVec_roundtrip h1, readBytesVec_roundtrip h2, ihh,
      List.any_cons, outWitIsNull]

/-! ## Helpers for the transaction-level round trip -/

theorem stripOut_of_null {o : CTxOut} (h : outWitIsNull o = true) : stripOut o = o := by
  unfold outWitIsNull at h
  rcases o with ⟨⟨c, rp, nc⟩, sc⟩
  simp only [Bool.and_eq_true, List.isEmpty_iff] at h
  simp [stripOut, stripValue, h.1, h.2]

theorem map_stripOut_of_null {l : List CTxOut} (h : ∀ o ∈ l, outWitIsNull o = true) :
    l.map stripOut = l := by
  rw [List.map_congr_left (fun o ho => stripOut_of_null (h o ho))]
  exact List.map_id l

theorem resizeWit_self (l : List CTxInWitness) : resizeWit l l.length = l := by
  simp [resizeWit]

theorem readVec_nil {α : Type} (p : List Byte → Except SerErr (α × List Byte)) (r : List Byte) :
    readVec p (byteOf 0 :: r) = .ok ([], r) := by
  unfold readVec readCompactSize
  norm_num [byteOf_val, readN]

theorem writeCompactSize_zero : writeCompactSize 0 = [byteOf 0] := by
  simp [writeCompactSize]

theorem readTxOut_full {btc : Bool} {o : CTxOut}
    (hn : btc = false → validValueShape o.nValue ∧ valueIsInBitcoinTx o.nValue = false)
    (hb : btc = true → bitcoinFormValue o.nValue)
    (hsc : sizeOk o.scriptPubKey.length) (r : List Byte) :
    writeTxOut btc o = .ok (pureOutBytes btc o) ∧
      readTxOut btc (pureOutBytes btc o ++ r) = .ok (stripOut o, r) := by
  have h := readValue_roundtrip hn hb (writeBytesVec o.scriptPubKey ++ r)
  exact ⟨writeTxOut_eq_pure h.1, readTxOut_roundtrip h.2 hsc⟩

theorem readFee_false (s : List Byte) : readFee false s = readI64 s := rfl

theorem readFee_true (s : List Byte) : readFee true s = .ok (TX_FEE_BITCOIN_TX_FLAG, s) := rfl

theorem writeVec_nil {α : Type} (w : α → List Byte) : writeVec w ([] : List α) = [byteOf 0] := by
  simp [writeVec, writeCompactSize_zero]

theorem readBody_noWit (btc : Bool) (vin0 : List CTxIn) (s : List Byte) :
    readBody true btc vin0 s =
      match readVec (readTxOut btc) s with
      | .ok (vout, s1) => .ok ((0, vin0, vout), s1)
      | .error e => .error e := by
  unfold readBody
  simp

theorem readBody_cons (btc : Bool) (i : CTxIn) (l : List CTxIn) (s : List Byte) :
    readBody false btc (i :: l) s =
      match readVec (readTxOut btc) s with
      | .ok (vout, s1) => .ok ((0, i :: l, vout), s1)
      | .error e => .error e := by
  unfold readBody
  simp

theorem readBody_nonempty (btc : Bool) {vin0 : List CTxIn} (h : vin0.isEmpty = false)
    (s : List Byte) :
    readBody false btc vin0 s =
      match readVec (readTxOut btc) s with
      | .ok (vout, s1) => .ok ((0, vin0, vout), s1)
      | .error e => .error e := by
  unfold readBody
  simp [h]

theorem witStage_skip (noWit : Bool) (fl nIn : Nat) (s : List Byte) (h : fl &&& 1 = 0) :
    witStage noWit fl nIn s = .ok ((⟨[]⟩, fl), s) := by
  unfold witStage
  rw [if_neg (by simp [h])]

theorem outWitStage_skip (noWit btc : Bool) (fl : Nat) (vout : List CTxOut) (s : List Byte)
    (h : fl &&& 2 = 0) :
    outWitStage noWit btc fl vout s = .ok ((vout, fl), s) := by
  unfold outWitStage
  rw [if_neg (by simp [h])]

theorem readBody_flags0 (btc : Bool) (s : List Byte) :
    readBody false btc [] (byteOf 0 :: s) = .ok ((0, [], []), s) := by
  unfold readBody readByte
  simp [byteOf_val]

theorem readBody_flagsNZ (btc : Bool) (fl : Nat) (h1 : 0 < fl) (h2 : fl < 256) (s : List Byte) :
    readBody false btc [] (byteOf fl :: s) =
      match readVec readTxIn s with
      | .ok (vin, s2) =>
        match readVec (readTxOut btc) s2 with
        | .ok (vout, s3) => .ok ((fl, vin, vout), s3)
        | .error e => .error e
      | .error e => .error e := by
  unfold readBody readByte
  simp [byteOf_small h2]
  omega

theorem encodeTx_decodeTx {tx : CMutableTransaction} {noWit btc : Bool}
    (hV : ValidTx tx) (hC : ConsistentFlags tx noWit btc) :
    ∃ bs, encodeTx tx noWit btc = .ok bs ∧
      ∀ r, decodeTx noWit btc (bs ++ r) = .ok (tx, r) := by
  obtain ⟨⟨hver1, hver2⟩, ⟨hfee1, hfee2⟩, hlock, hvinsz, hvoutsz, hvin, hvout, hwitsz, hwle⟩ := hV
  obtain ⟨hc1, hc2, hc3, hc4, hc5, hc6⟩ := hC
  have hOut : ∀ o ∈ tx.vout,
      (btc = false → validValueShape o.nValue ∧ valueIsInBitcoinTx o.nValue = false) ∧
      (btc = true → bitcoinFormValue o.nValue) := by
    intro o ho
    exact ⟨fun h => ⟨(hvout o ho).1, (hc5 h).2 o ho⟩, fun h => ((hc4 h).2 o ho).1⟩
  have HW : ∀ o ∈ tx.vout, writeValue btc o.nValue = .ok (pureValueBytes btc o.nValue) := by
    intro o ho
    cases btc
    · exact writeValue_native ((hOut o ho).1 rfl).2
    · exact writeValue_btc ((hOut o ho).2 rfl)
  have HR : ∀ o ∈ tx.vout, ∀ r2 : List Byte,
      readTxOut btc (pureOutBytes btc o ++ r2) = .ok (stripOut o, r2) :=
    fun o ho r2 => (readTxOut_full (hOut o ho).1 (hOut o ho).2 (hvout o ho).2.1 r2).2
  have HVout : ∀ r2 : List Byte,
      readVec (readTxOut btc) (writeVec (pureOutBytes btc) tx.vout ++ r2) =
        .ok (tx.vout.map stripOut, r2) :=
    fun r2 => readVec_roundtrip (readTxOut btc) (pureOutBytes btc) stripOut tx.vout hvoutsz HR r2
  have HVin : ∀ r2 : List Byte,
      readVec readTxIn (writeVec writeTxIn tx.vin ++ r2) = .ok (tx.vin, r2) := by
    intro r2
    have h := readVec_roundtrip readTxIn writeTxIn id tx.vin hvinsz
      (fun i hi r3 => readTxIn_roundtrip (hvin i hi).1 (hvin i hi).2.1 (hvin i hi).2.2.1
        (hvin i hi).2.2.2 r3) r2
    rwa [List.map_id] at h
  have hvb := writeVoutBody_eq HW
  cases noWit with
  | true =>
    obtain ⟨hwitnil, houtnull⟩ := hc3 rfl
    have hwitEq : tx.wit = ⟨[]⟩ := by
      rw [show tx.wit = ⟨tx.wit.vtxinwit⟩ from rfl, hwitnil]
    have hfl : computeFlags tx true btc = 0 := rfl
    have hstrip : tx.vout.map stripOut = tx.vout := map_stripOut_of_null houtnull
    cases btc with
    | false =>
      have hfeene := (hc5 rfl).1
      refine ⟨i32Bytes tx.nVersion ++ (i64Bytes tx.nTxFee ++ (writeVec writeTxIn tx.vin ++
        (writeVec (pureOutBytes false) tx.vout ++ u32Bytes tx.nLockTime))), ?_, ?_⟩
      · unfold encodeTx
        rw [if_pos hwle]
        simp only [hvb, hfl]
        simp [writeVec, hfeene, List.append_assoc]
      · intro r
        unfold decodeTx
        simp only [List.append_assoc, List.cons_append, List.singleton_append, List.nil_append, readI32_roundtrip hver1 hver2, readFee_false,
          readI64_roundtrip hfee1 hfee2, HVin, readBody_noWit, HVout, hstrip,
          witStage_skip true 0 tx.vin.length _ rfl, outWitStage_skip true false 0 tx.vout _ rfl,
          readU32_roundtrip hlock]
        rw [← hwitEq]
        simp
    | true =>
      have hfeeq := (hc4 rfl).1
      refine ⟨i32Bytes tx.nVersion ++ (writeVec writeTxIn tx.vin ++
        (writeVec (pureOutBytes true) tx.vout ++ u32Bytes tx.nLockTime)), ?_, ?_⟩
      · unfold encodeTx
        rw [if_pos hwle]
        simp only [hvb, hfl]
        simp [writeVec, List.append_assoc]
      · intro r
        unfold decodeTx
        simp only [List.append_assoc, List.cons_append, List.singleton_append, List.nil_append, readI32_roundtrip hver1 hver2, readFee_true,
          HVin, readBody_noWit, HVout, hstrip,
          witStage_skip true 0 tx.vin.length _ rfl, outWitStage_skip true true 0 tx.vout _ rfl,
          readU32_roundtrip hlock]
        rw [← hwitEq, ← hfeeq]
        simp
  | false =>
    cases btc with
    | true =>
      have hfeeq := (hc4 rfl).1
      have houtnull : ∀ o ∈ tx.vout, outWitIsNull o = true :=
        fun o ho => ((hc4 rfl).2 o ho).2
      have hstrip : tx.vout.map stripOut = tx.vout := map_stripOut_of_null houtnull
      cases hA : txWitIsNull tx.wit with
      | true =>
        have hwitnil := hc1 hA
        have hwitEq : tx.wit = ⟨[]⟩ := by
          rw [show tx.wit = ⟨tx.wit.vtxinwit⟩ from rfl, hwitnil]
        have hfl : computeFlags tx false true = 0 := by simp [computeFlags, hA]
        rcases hvin0 : tx.vin with _ | ⟨i0, l0⟩
        · have hvout0 : tx.vout = [] := hc6 rfl hfl hvin0
          refine ⟨i32Bytes tx.nVersion ++ (writeVec writeTxIn tx.vin ++
            (writeVec (pureOutBytes true) tx.vout ++ u32Bytes tx.nLockTime)), ?_, ?_⟩
          · unfold encodeTx
            rw [if_pos hwle]
            simp only [hvb, hfl]
            simp [writeVec, List.append_assoc]
          · intro r
            unfold decodeTx
            simp only [hvin0, hvout0, writeVec_nil, List.append_assoc, List.cons_append, List.singleton_append, List.nil_append,
              readI32_roundtrip hver1 hver2, readFee_true, readVec_nil, readBody_flags0,
              witStage_skip false 0 _ _ rfl, outWitStage_skip false true 0 _ _ rfl,
              readU32_roundtrip hlock]
            rw [← hwitEq, ← hfeeq, ← hvin0, ← hvout0]
            simp
        · have hvne : tx.vin.isEmpty = false := by rw [hvin0]; rfl
          refine ⟨i32Bytes tx.nVersion ++ (writeVec writeTxIn tx.vin ++
            (writeVec (pureOutBytes true) tx.vout ++ u32Bytes tx.nLockTime)), ?_, ?_⟩
          · unfold encodeTx
            rw [if_pos hwle]
            simp only [hvb, hfl]
            simp [writeVec, List.append_assoc]
          · intro r
            unfold decodeTx
            simp only [List.append_assoc, List.cons_append, List.singleton_append,
              List.nil_append, readI32_roundtrip hver1 hver2, readFee_true, HVin,
              readBody_nonempty true hvne, HVout, hstrip,
              witStage_skip false 0 _ _ rfl, outWitStage_skip false true 0 _ _ rfl,
              readU32_roundtrip hlock]
            rw [← hwitEq, ← hfeeq]
            simp
      | false =>
        have hlen := hc2 hA
        have hfl : computeFlags tx false true = 1 := by simp [computeFlags, hA]
        have hwitread : ∀ Z : List Byte,
            witStage false 1 tx.vin.length (writeTxWitness tx.wit.vtxinwit ++ Z) =
              .ok ((tx.wit, 0), Z) := by
          intro Z
          unfold witStage
          rw [if_pos ⟨by decide, rfl⟩]
          have h0 := readTxWitness_roundtrip hwitsz hA Z
          rw [hlen] at h0
          simp only [h0]
          rfl
        refine ⟨i32Bytes tx.nVersion ++ (byteOf 0 :: byteOf 1 ::
          (writeVec writeTxIn tx.vin ++ (writeVec (pureOutBytes true) tx.vout ++
            (writeTxWitness tx.wit.vtxinwit ++ u32Bytes tx.nLockTime)))), ?_, ?_⟩
        · unfold encodeTx
          rw [if_pos hwle]
          simp only [hvb, hfl]
          rw [← hlen, resizeWit_self]
          simp [writeVec, writeCompactSize_zero, List.append_assoc]
        · intro r
          unfold decodeTx
          simp only [List.append_assoc, List.cons_append, readI32_roundtrip hver1 hver2,
            readFee_true, readVec_nil, readBody_flagsNZ true 1 (by decide) (by decide),
            HVin, HVout, hstrip, hwitread, outWitStage_skip false true 0 _ _ rfl,
            readU32_roundtrip hlock]
          rw [← hfeeq]
          simp
    | false =>
      have hfeene := (hc5 rfl).1
      have hbne : (tx.nTxFee != TX_FEE_BITCOIN_TX_FLAG) = true := by
        simp [bne_iff_ne, hfeene]
      have houtsz : ∀ o ∈ tx.vout, sizeOk o.nValue.vchRangeproof.length ∧
          sizeOk o.nValue.vchNonceCommitment.length :=
        fun o ho => ⟨(hvout o ho).2.2.1, (hvout o ho).2.2.2⟩
      cases hB : tx.vout.any (fun o => !outWitIsNull o) with
      | false =>
        have houtnull : ∀ o ∈ tx.vout, outWitIsNull o = true := by
          intro o ho
          have := List.any_eq_false.mp hB o ho
          simpa using this
        have hstrip : tx.vout.map stripOut = tx.vout := map_stripOut_of_null houtnull
        cases hA : txWitIsNull tx.wit with
        | true =>
          have hwitnil := hc1 hA
          have hwitEq : tx.wit = ⟨[]⟩ := by
            rw [show tx.wit = ⟨tx.wit.vtxinwit⟩ from rfl, hwitnil]
          have hfl : computeFlags tx false false = 0 := by simp [computeFlags, hA, hB]
          rcases hvin0 : tx.vin with _ | ⟨i0, l0⟩
          · have hvout0 : tx.vout = [] := hc6 rfl hfl hvin0
            refine ⟨i32Bytes tx.nVersion ++ (i64Bytes tx.nTxFee ++ (writeVec writeTxIn tx.vin ++
              (writeVec (pureOutBytes false) tx.vout ++ u32Bytes tx.nLockTime))), ?_, ?_⟩
            · unfold encodeTx
              rw [if_pos hwle]
              simp only [hvb, hfl]
              simp [writeVec, hbne, List.append_assoc]
            · intro r
              unfold decodeTx
              simp only [hvin0, hvout0, writeVec_nil, List.append_assoc, List.cons_append,
                List.singleton_append, List.nil_append, readI32_roundtrip hver1 hver2,
                readFee_false, readI64_roundtrip hfee1 hfee2, readVec_nil, readBody_flags0,
                witStage_skip false 0 _ _ rfl, outWitStage_skip false false 0 _ _ rfl,
                readU32_roundtrip hlock]
              rw [← hwitEq, ← hvin0, ← hvout0]
              simp
          · have hvne : tx.vin.isEmpty = false := by rw [hvin0]; rfl
            refine ⟨i32Bytes tx.nVersion ++ (i64Bytes tx.nTxFee ++ (writeVec writeTxIn tx.vin ++
              (writeVec (pureOutBytes false) tx.vout ++ u32Bytes tx.nLockTime))), ?_, ?_⟩
            · unfold encodeTx
              rw [if_pos hwle]
              simp only [hvb, hfl]
              simp [writeVec, hbne, List.append_assoc]
            · intro r
              unfold decodeTx
              simp only [List.append_assoc, List.cons_append, List.singleton_append,
                List.nil_append, readI32_roundtrip hver1 hver2, readFee_false,
                readI64_roundtrip hfee1 hfee2, HVin, readBody_nonempty false hvne, HVout, hstrip,
                witStage_skip false 0 _ _ rfl, outWitStage_skip false false 0 _ _ rfl,
                readU32_roundtrip hlock]
              rw [← hwitEq]
              simp
        | false =>
          have hlen := hc2 hA
          have hfl : computeFlags tx false false = 1 := by simp [computeFlags, hA, hB]
          have hwitread : ∀ flv flx : Nat, flv &&& 1 ≠ 0 → flv ^^^ 1 = flx → ∀ Z : List Byte,
              witStage false flv tx.vin.length (writeTxWitness tx.wit.vtxinwit ++ Z) =
                .ok ((tx.wit, flx), Z) := by
            intro flv flx hbit hx Z
            unfold witStage
            rw [if_pos ⟨hbit, rfl⟩]
            have h0 := readTxWitness_roundtrip hwitsz hA Z
            rw [hlen] at h0
            simp only [h0, hx]
          refine ⟨i32Bytes tx.nVersion ++ (i64Bytes tx.nTxFee ++ (byteOf 0 :: byteOf 1 ::
            (writeVec writeTxIn tx.vin ++ (writeVec (pureOutBytes false) tx.vout ++
              (writeTxWitness tx.wit.vtxinwit ++ u32Bytes tx.nLockTime))))), ?_, ?_⟩
          · unfold encodeTx
            rw [if_pos hwle]
            simp only [hvb, hfl]
            rw [← hlen, resizeWit_self]
            simp [writeVec, writeCompactSize_zero, hbne, List.append_assoc]
          · intro r
            unfold decodeTx
            simp only [List.append_assoc, List.cons_append, List.singleton_append,
              List.nil_append, readI32_roundtrip hver1 hver2, readFee_false,
              readI64_roundtrip hfee1 hfee2, readVec_nil,
              readBody_flagsNZ false 1 (by decide) (by decide), HVin, HVout, hstrip,
              hwitread 1 0 (by decide) (by decide), outWitStage_skip false false 0 _ _ rfl,
              readU32_roundtrip hlock]
            simp
      | true =>
        have houtread : ∀ flv flx : Nat, flv &&& 2 ≠ 0 → flv ^^^ 2 = flx → ∀ Z : List Byte,
            outWitStage false false flv (tx.vout.map stripOut)
              ((tx.vout.map writeOutWit).flatten ++ Z) = .ok ((tx.vout, flx), Z) := by
          intro flv flx hbit hx Z
          unfold outWitStage
          rw [if_pos ⟨hbit, rfl, rfl⟩]
          have h0 := readOutWits_roundtrip houtsz Z
          simp only [h0, hB, hx]
          rfl
        cases hA : txWitIsNull tx.wit with
        | true =>
          have hwitnil := hc1 hA
          have hwitEq : tx.wit = ⟨[]⟩ := by
            rw [show tx.wit = ⟨tx.wit.vtxinwit⟩ from rfl, hwitnil]
          have hfl : computeFlags tx false false = 2 := by simp [computeFlags, hA, hB]
          refine ⟨i32Bytes tx.nVersion ++ (i64Bytes tx.nTxFee ++ (byteOf 0 :: byteOf 2 ::
            (writeVec writeTxIn tx.vin ++ (writeVec (pureOutBytes false) tx.vout ++
              ((tx.vout.map writeOutWit).flatten ++ u32Bytes tx.nLockTime))))), ?_, ?_⟩
          · unfold encodeTx
            rw [if_pos hwle]
            simp only [hvb, hfl]
            simp [writeVec, writeCompactSize_zero, hbne, List.append_assoc]
          · intro r
            unfold decodeTx
            simp only [List.append_assoc, List.cons_append, List.singleton_append,
              List.nil_append, readI32_roundtrip hver1 hver2, readFee_false,
              readI64_roundtrip hfee1 hfee2, readVec_nil,
              readBody_flagsNZ false 2 (by decide) (by decide), HVin, HVout,
              witStage_skip false 2 _ _ rfl, houtread 2 0 (by decide) (by decide),
              readU32_roundtrip hlock]
            rw [← hwitEq]
            simp
        | false =>
          have hlen := hc2 hA
          have hfl : computeFlags tx false false = 3 := by simp [computeFlags, hA, hB]
          have hwitread : ∀ flv flx : Nat, flv &&& 1 ≠ 0 → flv ^^^ 1 = flx → ∀ Z : List Byte,
              witStage false flv tx.vin.length (writeTxWitness tx.wit.vtxinwit ++ Z) =
                .ok ((tx.wit, flx), Z) := by
            intro flv flx hbit hx Z
            unfold witStage
            rw [if_pos ⟨hbit, rfl⟩]
            have h0 := readTxWitness_roundtrip hwitsz hA Z
            rw [hlen] at h0
            simp only [h0, hx]
          refine ⟨i32Bytes tx.nVersion ++ (i64Bytes tx.nTxFee ++ (byteOf 0 :: byteOf 3 ::
            (writeVec writeTxIn tx.vin ++ (writeVec (pureOutBytes false) tx.vout ++
              (writeTxWitness tx.wit.vtxinwit ++ ((tx.vout.map writeOutWit).flatten ++
                u32Bytes tx.nLockTime)))))), ?_, ?_⟩
          · unfold encodeTx
            rw [if_pos hwle]
            simp only [hvb, hfl]
            rw [← hlen, resizeWit_self]
            simp [writeVec, writeCompactSize_zero, hbne, List.append_assoc]
          · intro r
            unfold decodeTx
            simp only [List.append_assoc, List.cons_append, List.singleton_append,
              List.nil_append, readI32_roundtrip hver1 hver2, readFee_false,
              readI64_roundtrip hfee1 hfee2, readVec_nil,
              readBody_flagsNZ false 3 (by decide) (by decide), HVin, HVout,
              hwitread 3 2 (by decide) (by decide), houtread 2 0 (by decide) (by decide),
              readU32_roundtrip hlock]
            simp

/-! ## Claim theorems -/

/-- C8 counterexample: two outputs with identical value commitments and
identical locking scripts but different range proofs are NOT equal under
CTxOut::operator==, because CTxOutValue::operator== compares the range
proof and the nonce commitment as well; the range proof is therefore
part of output equality, contrary to the claim. -/
theorem claim_C8_counterexample :
    c8a.nValue.vchCommitment = c8b.nValue.vchCommitment ∧
    c8a.scriptPubKey = c8b.scriptPubKey ∧
    ¬ txOutEq c8a c8b := by decide

/-- C8 amended: two TransactionOutputs are equal iff both fields match,
where the value comparison includes the commitment, the range proof and
the nonce commitment buffers (the out-of-band witness data IS part of
output equality), together with the locking script. -/
theorem claim_C8_eq : ∀ a b : CTxOut,
    txOutEq a b ↔
      (a.nValue.vchCommitment = b.nValue.vchCommitment ∧
       a.nValue.vchRangeproof = b.nValue.vchRangeproof ∧
       a.nValue.vchNonceCommitment = b.nValue.vchNonceCommitment ∧
       a.scriptPubKey = b.scriptPubKey) := by
  intro a b
  unfold txOutEq valueEq
  tauto

theorem writeValue_ne_assert (btc : Bool) (v : CTxOutValue) :
    writeValue btc v ≠ .error .assertFailed := by
  unfold writeValue
  split
  · cases hg : getAmount v <;> simp [hg]
  · simp

theorem writeTxOut_ne_assert (btc : Bool) (o : CTxOut) :
    writeTxOut btc o ≠ .error .assertFailed := by
  intro h
  unfold writeTxOut at h
  split at h
  · simp at h
  · rename_i e he
    rw [h] at he
    exact writeValue_ne_assert btc o.nValue he

theorem writeVoutBody_ne_assert (btc : Bool) (l : List CTxOut) :
    writeVoutBody btc l ≠ .error .assertFailed := by
  induction l with
  | nil => simp [writeVoutBody]
  | cons o os ih =>
    intro h
    unfold writeVoutBody at h
    split at h
    · split at h
      · simp at h
      · rename_i he
        rw [h] at he
        exact ih he
    · rename_i e he
      rw [h] at he
      exact writeTxOut_ne_assert btc o he

/-- C9: the write path fails with the consistency assertion exactly when
the witness container has more entries than there are inputs; under the
precondition tx.wit.vtxinwit.size() <= tx.vin.size() the assertion never
fires, and a violating transaction is never encoded. -/
theorem claim_C9 : ∀ (tx : CMutableTransaction) (noWit btc : Bool),
    encodeTx tx noWit btc = .error .assertFailed ↔
      tx.vin.length < tx.wit.vtxinwit.length := by
  intro tx noWit btc
  constructor
  · intro h
    by_contra hle
    push_neg at hle
    unfold encodeTx at h
    rw [if_pos hle] at h
    split at h
    · simp at h
    · rename_i e he
      rw [h] at he
      exact writeVoutBody_ne_assert btc tx.vout he
  · intro h
    unfold encodeTx
    rw [if_neg (by omega)]

/-- C10: equality of immutable transactions is decided solely by the
cached hash, and because the hash is computed from the no-witness
serialization, two transactions with identical non-witness content but
different witness containers (each no larger than the input list)
compare equal. -/
theorem claim_C10 :
    (∀ a b : CTransaction, ctxEq a b ↔ a.hashData = b.hashData) ∧
    (∀ (m : CMutableTransaction) (w1 w2 : CTxWitness),
      w1.vtxinwit.length ≤ m.vin.length → w2.vtxinwit.length ≤ m.vin.length →
      ctxEq (mkCTransaction {m with wit := w1}) (mkCTransaction {m with wit := w2})) := by
  constructor
  · intro a b
    exact Iff.rfl
  · intro m w1 w2 h1 h2
    show txHashData _ = txHashData _
    unfold txHashData encodeTx
    simp only [computeFlags]
    simp [h1, h2]

/-- C10 witness: a concrete transaction compared with itself carrying an
empty versus a one-entry witness container. -/
theorem claim_C10_witness :
    ctxEq (mkCTransaction {c10m with wit := c10w1}) (mkCTransaction {c10m with wit := c10w2}) :=
  claim_C10.2 c10m c10w1 c10w2 (by decide) (by decide)

/-- C5: the native-mode confidential-value read consumes exactly one
discriminant byte and dispatches on it: tags 0/1 resize the buffer to 9
bytes and read 8 more (truncation failing the parse); tags 2/3 perform
no resize and read nothing further; tags 8/9 resize to 33 bytes and
read 32 more; any other tag (including the Null sentinel 0xFF) yields
the minimal one-byte buffer and stops without error. -/
theorem claim_C5 :
    readValueNative [] = .error .truncated ∧
    (∀ (t : Byte) (rest : List Byte),
      ((t = byteOf 0 ∨ t = byteOf 1) →
        (8 ≤ rest.length →
          readValueNative (t :: rest) = .ok (⟨t :: rest.take 8, [], []⟩, rest.drop 8)) ∧
        (rest.length < 8 → readValueNative (t :: rest) = .error .truncated)) ∧
      ((t = byteOf 2 ∨ t = byteOf 3) →
        readValueNative (t :: rest) = .ok (⟨[t], [], []⟩, rest)) ∧
      ((t = byteOf 8 ∨ t = byteOf 9) →
        (32 ≤ rest.length →
          readValueNative (t :: rest) = .ok (⟨t :: rest.take 32, [], []⟩, rest.drop 32)) ∧
        (rest.length < 32 → readValueNative (t :: rest) = .error .truncated)) ∧
      (¬(t = byteOf 0 ∨ t = byteOf 1) → ¬(t = byteOf 2 ∨ t = byteOf 3) →
        ¬(t = byteOf 8 ∨ t = byteOf 9) →
        readValueNative (t :: rest) = .ok (⟨[t], [], []⟩, rest))) := by
  refine ⟨rfl, ?_⟩
  intro t rest
  refine ⟨?_, ?_, ?_, ?_⟩
  · intro h01
    constructor
    · intro hge
      simp only [readValueNative]
      rw [if_pos h01]
      simp [readBytesN, hge]
    · intro hlt
      simp only [readValueNative]
      rw [if_pos h01]
      have hrb : readBytesN 8 rest = .error .truncated := by
        unfold readBytesN
        rw [if_neg (by omega)]
      simp [hrb]
  · intro h23
    have h01 : ¬(t = byteOf 0 ∨ t = byteOf 1) := by
      rcases h23 with h | h <;> subst h <;> decide
    simp only [readValueNative]
    rw [if_neg h01, if_pos h23]
  · intro h89
    have h01 : ¬(t = byteOf 0 ∨ t = byteOf 1) := by
      rcases h89 with h | h <;> subst h <;> decide
    have h23 : ¬(t = byteOf 2 ∨ t = byteOf 3) := by
      rcases h89 with h | h <;> subst h <;> decide
    constructor
    · intro hge
      simp only [readValueNative]
      rw [if_neg h01, if_neg h23, if_pos h89]
      simp [readBytesN, hge]
    · intro hlt
      simp only [readValueNative]
      rw [if_neg h01, if_neg h23, if_pos h89]
      have hrb : readBytesN 32 rest = .error .truncated := by
        unfold readBytesN
        rw [if_neg (by omega)]
      simp [hrb]
  · intro h01 h23 h89
    simp only [readValueNative]
    rw [if_neg h01, if_neg h23, if_neg h89]

/-- C5 witness: the Null sentinel 0xFF is accepted as a minimal one-byte
encoding. -/
theorem claim_C5_witness :
    readValueNative [byteOf 0xff] = .ok (⟨[byteOf 0xff], [], []⟩, []) :=
  (claim_C5.2 (byteOf 0xff) []).2.2.2 (by decide) (by decide) (by decide)

/-- C4: on the read path, once the input/output lists have been read and
the two witness stages have run (clearing bits 0 and 1 where
applicable), any bit still set in the flags byte makes the decode fail
with the Unknown transaction optional data format error; such streams
are refused, never silently skipped. -/
theorem claim_C4 : ∀ (noWit btc : Bool) (s : List Byte) (ver : Int) (s1 : List Byte)
    (fee : Int) (s2 : List Byte) (vin0 : List CTxIn) (s3 : List Byte)
    (fl : Nat) (vin : List CTxIn) (vout0 : List CTxOut) (s4 : List Byte)
    (wit : CTxWitness) (fl1 : Nat) (s5 : List Byte)
    (vout : List CTxOut) (fl2 : Nat) (s6 : List Byte),
    readI32 s = .ok (ver, s1) →
    readFee btc s1 = .ok (fee, s2) →
    readVec readTxIn s2 = .ok (vin0, s3) →
    readBody noWit btc vin0 s3 = .ok ((fl, vin, vout0), s4) →
    witStage noWit fl vin.length s4 = .ok ((wit, fl1), s5) →
    outWitStage noWit btc fl1 vout0 s5 = .ok ((vout, fl2), s6) →
    fl2 ≠ 0 →
    decodeTx noWit btc s = .error .unknownOptionalData := by
  intro noWit btc s ver s1 fee s2 vin0 s3 fl vin vout0 s4 wit fl1 s5 vout fl2 s6
  intro h1 h2 h3 h4 h5 h6 h7
  unfold decodeTx
  simp only [h1, h2, h3, h4, h5, h6]
  rw [if_pos h7]

/-- C4 witness: a concrete native-mode stream whose flags byte is 4. -/
theorem claim_C4_witness : decodeTx false false c4stream = .error .unknownOptionalData :=
  claim_C4 false false c4stream 1 (c4stream.drop 4) 0 (c4stream.drop 12) [] (c4stream.drop 13)
    4 [] [] (c4stream.drop 16) ⟨[]⟩ 4 (c4stream.drop 16) [] 4 (c4stream.drop 16)
    (by decide) (by decide) (by decide) (by decide) (by decide) (by decide) (by decide)

/-- C2: decode rejects semantically empty witness blocks. If the flags
byte has bit 0 set and every decoded per-input witness is null, the
decode throws the Superfluous witness record failure; if bit 1 is set
and every decoded output-witness record is null, it throws the
Superfluous output witness record failure; and the concrete stream with
flags byte 0b01 followed by an all-empty single-entry witness list
fails decode rather than yielding a null witness. -/
theorem claim_C2 :
    (∀ (noWit btc : Bool) (s : List Byte) (ver : Int) (s1 : List Byte)
      (fee : Int) (s2 : List Byte) (vin0 : List CTxIn) (s3 : List Byte)
      (fl : Nat) (vin : List CTxIn) (vout0 : List CTxOut) (s4 : List Byte)
      (ws : List CTxInWitness) (rw2 : List Byte),
      readI32 s = .ok (ver, s1) →
      readFee btc s1 = .ok (fee, s2) →
      readVec readTxIn s2 = .ok (vin0, s3) →
      readBody noWit btc vin0 s3 = .ok ((fl, vin, vout0), s4) →
      fl &&& 1 ≠ 0 → noWit = false →
      readN readInWit vin.length s4 = .ok (ws, rw2) →
      (∀ w ∈ ws, inWitIsNull w = true) →
      decodeTx noWit btc s = .error .superfluousWitness) ∧
    (∀ (noWit btc : Bool) (s : List Byte) (ver : Int) (s1 : List Byte)
      (fee : Int) (s2 : List Byte) (vin0 : List CTxIn) (s3 : List Byte)
      (fl : Nat) (vin : List CTxIn) (vout0 : List CTxOut) (s4 : List Byte)
      (wit : CTxWitness) (fl1 : Nat) (s5 : List Byte)
      (vout2 : List CTxOut) (r2 : List Byte),
      readI32 s = .ok (ver, s1) →
      readFee btc s1 = .ok (fee, s2) →
      readVec readTxIn s2 = .ok (vin0, s3) →
      readBody noWit btc vin0 s3 = .ok ((fl, vin, vout0), s4) →
      witStage noWit fl vin.length s4 = .ok ((wit, fl1), s5) →
      fl1 &&& 2 ≠ 0 → noWit = false → btc = false →
      readOutWits vout0 s5 = .ok ((vout2, false), r2) →
      decodeTx noWit btc s = .error .superfluousOutputWitness) ∧
    decodeTx false false c2stream = .error .superfluousWitness := by
  refine ⟨?_, ?_, ?_⟩
  · intro noWit btc s ver s1 fee s2 vin0 s3 fl vin vout0 s4 ws rw2
    intro h1 h2 h3 h4 hbit hnw h5 hall
    have hws : witStage noWit fl vin.length s4 = .error .superfluousWitness := by
      unfold witStage
      rw [if_pos ⟨hbit, hnw⟩]
      unfold readTxWitness
      simp [h5, List.all_eq_true.mpr hall]
    unfold decodeTx
    simp only [h1, h2, h3, h4, hws]
  · intro noWit btc s ver s1 fee s2 vin0 s3 fl vin vout0 s4 wit fl1 s5 vout2 r2
    intro h1 h2 h3 h4 h5 hbit hnw hbtc h6
    have hos : outWitStage noWit btc fl1 vout0 s5 = .error .superfluousOutputWitness := by
      unfold outWitStage
      rw [if_pos ⟨hbit, hnw, hbtc⟩]
      simp [h6]
    unfold decodeTx
    simp only [h1, h2, h3, h4, h5, hos]
  · decide

/-- C2 witness: the rejection-scenario stream, traced through the claim's
general bit-0 statement. -/
theorem claim_C2_witness : decodeTx false false c2stream = .error .superfluousWitness :=
  claim_C2.1 false false c2stream 1 (c2stream.drop 4) 0 (c2stream.drop 12) [] (c2stream.drop 13)
    1 [c2in] [] (c2stream.drop 57) [⟨[]⟩] (c2stream.drop 58)
    (by decide) (by decide) (by decide) (by decide) (by decide) (by decide) (by decide)
    (by decide)

/-- C1 counterexample: a valid transaction all of whose values are
explicit amounts (vacuously), with fee 0, does NOT round-trip under the
Bitcoin-compatible flag combination: the fee field is not serialized in
that mode and the decoder reconstructs the sentinel -42, so decode of
encode yields a different transaction (and hence a different recomputed
cached hash). -/
theorem claim_C1_counterexample :
    ValidTx c1tx ∧ (∀ o ∈ c1tx.vout, valueIsAmount o.nValue = true) ∧
    encThenDecC c1tx false true = some (.ok (mkCTransaction c1decoded, [])) ∧
    mkCTransaction c1decoded ≠ mkCTransaction c1tx := by decide

/-- C1 amended: for every valid transaction T and flag combination F
consistent with T's content — consistency meaning: the witness container
is empty when null and input-aligned otherwise; under no-witness there
is no witness data; under Bitcoin-compatible the fee equals the
sentinel and every value is a Bitcoin-form explicit amount with no
out-of-band witness data; in native mode the fee is not the sentinel
and no value is in the Bitcoin-only form; and a flagless encoding with
an empty input list also has empty outputs — decoding the bytes encoded
under F yields a transaction field-wise equal to T, including the
recomputed cached hash. -/
theorem claim_C1 : ∀ (tx : CMutableTransaction) (noWit btc : Bool),
    ValidTx tx → ConsistentFlags tx noWit btc →
    encThenDecC tx noWit btc = some (.ok (mkCTransaction tx, [])) := by
  intro tx noWit btc hV hC
  obtain ⟨bs, he, hd⟩ := encodeTx_decodeTx hV hC
  have hd0 := hd []
  rw [List.append_nil] at hd0
  unfold encThenDecC decodeCTx
  simp only [he, hd0]

/-- C1 witness: a native transaction with one input, a two-element
witness stack and one explicit output round-trips. -/
theorem claim_C1_witness :
    encThenDecC c1wtx false false = some (.ok (mkCTransaction c1wtx, [])) :=
  claim_C1 c1wtx false false (by decide) (by decide)

/-- C7 counterexample: a zero-input transaction with one output and the
witness flags unset fails to round-trip in a witness-permitting mode:
the decoder consumes the output-count byte as the flags byte, re-reads
an input list out of the output data and the parse collapses
(truncated), instead of preserving the inputs and outputs. -/
theorem claim_C7_counterexample :
    ValidTx c7tx ∧ computeFlags c7tx false false = 0 ∧
    encThenDec c7tx false false = some (.error .truncated) := by decide

/-- C7 amended: a transaction with zero inputs AND zero outputs, witness
flags unset, round-trips in a witness-permitting mode: its legacy-layout
stream decodes as the legitimate empty transaction (the byte following
the empty input list — the zero output count — is consumed as a zero
flags byte), preserving all fields. -/
theorem claim_C7 : ∀ (ver fee : Int) (lock : Nat),
    -(2^31) ≤ ver → ver < 2^31 → -(2^63) ≤ fee → fee < 2^63 → lock < 2^32 →
    fee ≠ TX_FEE_BITCOIN_TX_FLAG →
    encThenDec ⟨ver, fee, [], [], ⟨[]⟩, lock⟩ false false =
      some (.ok (⟨ver, fee, [], [], ⟨[]⟩, lock⟩, [])) := by
  intro ver fee lock h1 h2 h3 h4 h5 h6
  have hV : ValidTx ⟨ver, fee, [], [], ⟨[]⟩, lock⟩ := by
    refine ⟨⟨h1, h2⟩, ⟨h3, h4⟩, h5, by norm_num [sizeOk], by norm_num [sizeOk],
      by simp, by simp, by simp, by simp⟩
  have hC : ConsistentFlags ⟨ver, fee, [], [], ⟨[]⟩, lock⟩ false false := by
    refine ⟨fun _ => rfl, ?_, by simp, by simp, fun _ => ⟨h6, by simp⟩, fun _ _ _ => rfl⟩
    intro h
    simp [txWitIsNull] at h
  obtain ⟨bs, he, hd⟩ := encodeTx_decodeTx hV hC
  have hd0 := hd []
  rw [List.append_nil] at hd0
  unfold encThenDec
  simp only [he, hd0]

/-- C7 amended witness: the empty transaction with version 1, fee 1 and
lock time 0. -/
theorem claim_C7_witness :
    encThenDec ⟨1, 1, [], [], ⟨[]⟩, 0⟩ false false =
      some (.ok (⟨1, 1, [], [], ⟨[]⟩, 0⟩, [])) :=
  claim_C7 1 1 0 (by decide) (by decide) (by decide) (by decide) (by decide) (by decide)

theorem writeValue_mode_eq {v : CTxOutValue} (h : valueIsInBitcoinTx v = true) :
    writeValue false v = writeValue true v := by
  unfold writeValue
  simp [h]

theorem writeVoutBody_mode_eq {l : List CTxOut}
    (h : ∀ o ∈ l, valueIsInBitcoinTx o.nValue = true) :
    writeVoutBody false l = writeVoutBody true l := by
  induction l with
  | nil => rfl
  | cons o os ih =>
    unfold writeVoutBody
    rw [show writeTxOut false o = writeTxOut true o from by
        unfold writeTxOut
        rw [writeValue_mode_eq (h o (List.mem_cons_self o os))],
      ih (fun y hy => h y (List.mem_cons_of_mem o hy))]

theorem computeFlags_mode_eq {tx : CMutableTransaction}
    (h : ∀ o ∈ tx.vout, outWitIsNull o = true) :
    computeFlags tx false false = computeFlags tx false true := by
  unfold computeFlags
  have hany : tx.vout.any (fun o => !outWitIsNull o) = false := by
    rw [List.any_eq_false]
    intro o ho
    simp [h o ho]
  simp [hany]

/-- The native write of a Bitcoin-form transaction (sentinel fee,
Bitcoin-form values, no output-witness data) produces exactly the
Bitcoin-compatible byte stream. -/
theorem encodeTx_mode_eq {tx : CMutableTransaction}
    (hfee : tx.nTxFee = TX_FEE_BITCOIN_TX_FLAG)
    (hv : ∀ o ∈ tx.vout, valueIsInBitcoinTx o.nValue = true)
    (hw : ∀ o ∈ tx.vout, outWitIsNull o = true) :
    encodeTx tx false false = encodeTx tx false true := by
  unfold encodeTx
  rw [writeVoutBody_mode_eq hv, computeFlags_mode_eq hw]
  simp [hfee]

theorem decodeTx_btc_fee {noWit : Bool} {s : List Byte} {m : CMutableTransaction}
    {r : List Byte} (h : decodeTx noWit true s = .ok (m, r)) :
    m.nTxFee = TX_FEE_BITCOIN_TX_FLAG := by
  unfold decodeTx at h
  simp only [readFee_true] at h
  cases hI : readI32 s with
  | error e => simp [hI] at h
  | ok p =>
    obtain ⟨ver, s1⟩ := p
    simp only [hI] at h
    cases hVin : readVec readTxIn s1 with
    | error e => simp [hVin] at h
    | ok p =>
      obtain ⟨vin0, s3⟩ := p
      simp only [hVin] at h
      cases hB : readBody noWit true vin0 s3 with
      | error e => simp [hB] at h
      | ok p =>
        obtain ⟨⟨fl, vin, vout0⟩, s4⟩ := p
        simp only [hB] at h
        cases hW : witStage noWit fl vin.length s4 with
        | error e => simp [hW] at h
        | ok p =>
          obtain ⟨⟨wit, fl1⟩, s5⟩ := p
          simp only [hW] at h
          cases hO : outWitStage noWit true fl1 vout0 s5 with
          | error e => simp [hO] at h
          | ok p =>
            obtain ⟨⟨vout, fl2⟩, s6⟩ := p
            simp only [hO] at h
            by_cases hfl2 : fl2 ≠ 0
            · rw [if_pos hfl2] at h
              simp at h
            · rw [if_neg hfl2] at h
              cases hU : readU32 s6 with
              | error e => simp [hU] at h
              | ok p =>
                obtain ⟨lock, s7⟩ := p
                simp only [hU] at h
                simp only [Except.ok.injEq, Prod.mk.injEq] at h
                rw [← h.1]

/-- C6 counterexample: a transaction whose fee equals the sentinel does
NOT round-trip through the native encode/decode path: the native writer
omits the fee field but the native reader always parses one, so the
decode of the encoding fails (truncated) instead of preserving the
fee. -/
theorem claim_C6_counterexample :
    ValidTx c6tx ∧ c6tx.nTxFee = TX_FEE_BITCOIN_TX_FLAG ∧
    encThenDec c6tx false false = some (.error .truncated) := by decide

/-- C6 amended: the native writer emits the fee as a signed 8-byte
amount unless it equals the reserved sentinel -42, in which case the
field is omitted; a Bitcoin-compatible read always reconstructs the
sentinel rather than parsing a fee field; and the omission lets a
transaction constructed for Bitcoin-compatible reuse (sentinel fee,
Bitcoin-form values, no output-witness data) round-trip through the
native WRITE path combined with the Bitcoin-compatible READ path
without corrupting the fee field. -/
theorem claim_C6 :
    (∀ (tx : CMutableTransaction) (noWit : Bool) (bs : List Byte),
      encodeTx tx noWit false = .ok bs →
      ∃ t, bs = i32Bytes tx.nVersion ++
        ((if tx.nTxFee = TX_FEE_BITCOIN_TX_FLAG then [] else i64Bytes tx.nTxFee) ++ t)) ∧
    (∀ (noWit : Bool) (s : List Byte) (m : CMutableTransaction) (r : List Byte),
      decodeTx noWit true s = .ok (m, r) → m.nTxFee = TX_FEE_BITCOIN_TX_FLAG) ∧
    (∀ tx : CMutableTransaction, ValidTx tx → ConsistentFlags tx false true →
      encNativeDecBtc tx false = some (.ok (tx, []))) := by
  refine ⟨?_, ?_, ?_⟩
  · intro tx noWit bs h
    unfold encodeTx at h
    split at h
    · split at h
      · rename_i vb hvb
        simp only [Except.ok.injEq] at h
        subst h
        refine ⟨(if computeFlags tx noWit false ≠ 0 then
            writeCompactSize 0 ++ [byteOf (computeFlags tx noWit false)] else []) ++
          (writeVec writeTxIn tx.vin ++ ((writeCompactSize tx.vout.length ++ vb) ++
            ((if computeFlags tx noWit false &&& 1 ≠ 0 then
                writeTxWitness (resizeWit tx.wit.vtxinwit tx.vin.length) else []) ++
              ((if computeFlags tx noWit false &&& 2 ≠ 0 then
                  (tx.vout.map writeOutWit).flatten else []) ++
                u32Bytes tx.nLockTime)))), ?_⟩
        by_cases hf : tx.nTxFee = TX_FEE_BITCOIN_TX_FLAG
        · simp [hf, List.append_assoc]
        · simp [hf, bne_iff_ne, List.append_assoc]
      · simp at h
    · simp at h
  · intro noWit s m r h
    exact decodeTx_btc_fee h
  · intro tx hV hC
    have hfee := (hC.2.2.2.1 rfl).1
    have hvals : ∀ o ∈ tx.vout, valueIsInBitcoinTx o.nValue = true := by
      intro o ho
      have := ((hC.2.2.2.1 rfl).2 o ho).1.1
      simp [valueIsInBitcoinTx, this]
    have houtw : ∀ o ∈ tx.vout, outWitIsNull o = true :=
      fun o ho => ((hC.2.2.2.1 rfl).2 o ho).2
    obtain ⟨bs, he, hd⟩ := encodeTx_decodeTx hV hC
    have hd0 := hd []
    rw [List.append_nil] at hd0
    unfold encNativeDecBtc
    rw [encodeTx_mode_eq hfee hvals houtw]
    simp only [he, hd0]

/-- C6 witness: a concrete Bitcoin-form transaction written natively and
read back in Bitcoin-compatible mode. -/
theorem claim_C6_witness : encNativeDecBtc c6btx false = some (.ok (c6btx, [])) :=
  claim_C6.2.2 c6btx (by decide) (by decide)

/-- C3: for every transaction the encoder serializes, flag bit 0 is set
iff witnesses are permitted and the witness container is non-null, and
flag bit 1 is set iff witnesses are permitted, the Bitcoin-compatible
flag is absent, and some output carries a non-null output witness; when
the flags byte is zero the emitted stream is the direct legacy layout —
version, optional fee, inputs, outputs, lock time — with no dummy
marker and no flags byte. -/
theorem claim_C3 : ∀ (tx : CMutableTransaction) (noWit btc : Bool) (bs : List Byte),
    encodeTx tx noWit btc = .ok bs →
    ((computeFlags tx noWit btc) &&& 1 ≠ 0 ↔
      (noWit = false ∧ txWitIsNull tx.wit = false)) ∧
    ((computeFlags tx noWit btc) &&& 2 ≠ 0 ↔
      (noWit = false ∧ btc = false ∧ ∃ o ∈ tx.vout, outWitIsNull o = false)) ∧
    (computeFlags tx noWit btc = 0 →
      ∃ vb, writeVoutBody btc tx.vout = .ok vb ∧
        bs = i32Bytes tx.nVersion ++
          (if !btc && (tx.nTxFee != TX_FEE_BITCOIN_TX_FLAG) then i64Bytes tx.nTxFee else []) ++
          writeVec writeTxIn tx.vin ++ (writeCompactSize tx.vout.length ++ vb) ++
          u32Bytes tx.nLockTime) := by
  intro tx noWit btc bs henc
  have hbits : ∀ c : Prop, ∀ inst : Decidable c,
      ((if txWitIsNull tx.wit then 0 else 1) + (if c then 2 else 0)) &&& 1 =
        (if txWitIsNull tx.wit then 0 else 1) ∧
      ((if txWitIsNull tx.wit then 0 else 1) + (if c then 2 else 0)) &&& 2 =
        (if c then 2 else 0) := by
    intro c inst
    by_cases hc : c <;> cases hW : txWitIsNull tx.wit <;> simp [hc, hW] <;> decide
  refine ⟨?_, ?_, ?_⟩
  · unfold computeFlags
    cases noWit with
    | true => simp
    | false =>
      rw [if_neg (by simp)]
      rw [(hbits _ _).1]
      cases hW : txWitIsNull tx.wit <;> simp [hW]
  · unfold computeFlags
    cases noWit with
    | true => simp
    | false =>
      rw [if_neg (by simp)]
      rw [(hbits _ _).2]
      cases hb : btc <;> cases hA : tx.vout.any (fun o => !outWitIsNull o) <;>
        simp_all [List.any_eq_true, List.any_eq_false]
  · intro hfl
    unfold encodeTx at henc
    split at henc
    · split at henc
      · rename_i vb hvb
        simp only [Except.ok.injEq] at henc
        subst henc
        refine ⟨vb, hvb, ?_⟩
        rw [hfl]
        simp [writeVec, List.append_assoc]
      · simp at henc
    · simp at henc

/-- C3 witness: the flag characterization and the direct legacy layout,
at the concrete empty transaction c1tx encoded natively. -/
theorem claim_C3_witness :
    ((computeFlags c1tx false false) &&& 1 ≠ 0 ↔
      (false = false ∧ txWitIsNull c1tx.wit = false)) ∧
    ((computeFlags c1tx false false) &&& 2 ≠ 0 ↔
      (false = false ∧ false = false ∧ ∃ o ∈ c1tx.vout, outWitIsNull o = false)) ∧
    (computeFlags c1tx false false = 0 →
      ∃ vb, writeVoutBody false c1tx.vout = .ok vb ∧
        c3bytes = i32Bytes c1tx.nVersion ++
          (if !false && (c1tx.nTxFee != TX_FEE_BITCOIN_TX_FLAG) then i64Bytes c1tx.nTxFee
           else []) ++
          writeVec writeTxIn c1tx.vin ++ (writeCompactSize c1tx.vout.length ++ vb) ++
          u32Bytes c1tx.nLockTime) :=
  claim_C3 c1tx false false c3bytes (by decide)
